import Mathlib

/-!
# Verification of the katvan tokenizer / highlighting parser spec

The repository ships a two-stage analysis engine (tokenizer + highlighting
parser, exercised by `tests/katvan_parsing.t.cpp`) and a spell checker
(`src/katvan_spellchecker.cpp`).  The tokenizer and parser implementation
itself is not part of the source tree available here (only its test suite
is).  The definitions in the first part of this file are therefore modelled
from the specification, with the behaviour pinned down by the test suite
wherever the two disagree.  The spell-checker definitions are direct
embeddings of the C++ source.

Positions are measured in code units of the input; the input is embedded as
a `List Char`.
-/

namespace katvan

/-! ## Tokenizer: data model -/

/-- Modelled from the spec: the closed `TokenType` enumeration of the
tokenizer (`BEGIN` and `TEXT_END` are the sentinel tokens bounding every
stream). The implementation file `katvan_parsing.h/cpp` is not in `src/`;
only its tests are. -/
inductive TokenType where
  | BEGIN
  | TEXT_END
  | WORD
  | WHITESPACE
  | LINE_END
  | SYMBOL
  | CODE_NUMBER
  | ESCAPE
deriving DecidableEq, Repr

/-- Modelled from the spec: a token is
`{ type, startPos : offset, length, text : substring }`, immutable once
produced. -/
structure Token where
  type : TokenType
  startPos : Nat
  length : Nat
  text : List Char
deriving DecidableEq, Repr

/-! ## Tokenizer: character classes and sub-scanners

All scanners return the number of code units they consume, so that the
consumed text is always `cs.take n` and the remainder `cs.drop n`. -/

/-- Horizontal space (space or tab); line terminators are classified
separately. -/
def isHSpace (c : Char) : Bool :=
  c = ' ' ∨ c = '\t'

/-- A line-terminator character. -/
def isNL (c : Char) : Bool :=
  c = '\n' ∨ c = '\r'

/-- Length of the line terminator at the head of the input (`\r\n` counts
as a single two-code-unit terminator). Only meaningful when the head is a
terminator character. -/
def nlLen (cs : List Char) : Nat :=
  match cs with
  | '\r' :: '\n' :: _ => 2
  | _ => 1

/-- Modelled from the spec: "letter-like" characters form `WORD` tokens.
ASCII letters, and all non-ASCII code units (covering non-Latin scripts,
their numerals and combining marks, which attach to the letter run). -/
def letterLike (c : Char) : Bool :=
  c.isAlpha ∨ 0x80 ≤ c.val.toNat

/-- Hexadecimal digit (case-insensitive). -/
def isHexDigit (c : Char) : Bool :=
  c.isDigit ∨ ('a' ≤ c ∧ c ≤ 'f') ∨ ('A' ≤ c ∧ c ≤ 'F')

/-- A character a backslash may escape as a single-character escape:
punctuation-like characters (`\$`, `\"`, `\'`, `\\`, `\_`, ...), i.e.
anything that is not letter-like, a digit or whitespace. -/
def isEscapable (c : Char) : Bool :=
  ¬ (letterLike c ∨ c.isDigit ∨ isHSpace c ∨ isNL c)

/-- Length of the body of a Unicode escape after `\u`: an opening brace,
at least one hex digit, and a closing brace; `0` when that shape is not
present. -/
def uniEscLen (cs : List Char) : Nat :=
  match cs with
  | '{' :: rr =>
    if 0 < (rr.takeWhile isHexDigit).length ∧
        (rr.drop (rr.takeWhile isHexDigit).length).head? = some '}' then
      1 + (rr.takeWhile isHexDigit).length + 1
    else 0
  | _ => 0

/-- Modelled from the spec: length of the escape construct at the head of
the input, `0` when the head is not a valid escape.  A backslash followed
by a single escapable character, or a Unicode escape `\u`, `{`, hex
digits, `}`, is one `ESCAPE` token covering the full construct; an escape
missing its closing brace, or a backslash not followed by a recognized
escape shape, degrades to a standalone `SYMBOL` for the backslash. -/
def escLen (cs : List Char) : Nat :=
  match cs with
  | '\\' :: c :: rest =>
    if c = 'u' then
      if uniEscLen rest = 0 then 0 else 2 + uniEscLen rest
    else if isEscapable c then 2 else 0
  | _ => 0

/-- Length of an optional fractional part: `.` followed by at least one
decimal digit; `0` otherwise. -/
def fracLen (cs : List Char) : Nat :=
  match cs with
  | '.' :: rr =>
    if (rr.takeWhile Char.isDigit).length = 0 then 0
    else 1 + (rr.takeWhile Char.isDigit).length
  | _ => 0

/-- Length of an optional exponent sign. -/
def signLen (cs : List Char) : Nat :=
  match cs with
  | c :: _ => if c = '-' ∨ c = '+' then 1 else 0
  | [] => 0

/-- Length of an optional exponent part: `e`/`E`, optional sign, at least
one decimal digit; `0` otherwise (a dangling `e` or sign is not
consumed, which realises the backtracking rule). -/
def expLen (cs : List Char) : Nat :=
  match cs with
  | c :: rr =>
    if c = 'e' ∨ c = 'E' then
      if ((rr.drop (signLen rr)).takeWhile Char.isDigit).length = 0 then 0
      else 1 + signLen rr + ((rr.drop (signLen rr)).takeWhile Char.isDigit).length
    else 0
  | [] => 0

/-- Longest valid prefix of the unsigned decimal numeric-code grammar:
decimal digits, optional fractional part, optional exponent. -/
def decBody (cs : List Char) : Nat :=
  if (cs.takeWhile Char.isDigit).length = 0 then 0
  else
    (cs.takeWhile Char.isDigit).length
      + fracLen (cs.drop (cs.takeWhile Char.isDigit).length)
      + expLen (cs.drop ((cs.takeWhile Char.isDigit).length
          + fracLen (cs.drop (cs.takeWhile Char.isDigit).length)))

/-- Modelled from the spec: longest valid prefix of the decimal
numeric-code grammar — optional leading `-`, decimal digits, optional
fractional part (`.` digits), optional exponent (`e`/`E`, optional sign,
digits).  Returns `0` when no valid prefix exists. -/
def decLen (cs : List Char) : Nat :=
  match cs with
  | '-' :: r => if decBody r = 0 then 0 else 1 + decBody r
  | _ => decBody cs

/-- Length of an optional hexadecimal fractional part. -/
def hexFracLen (cs : List Char) : Nat :=
  match cs with
  | '.' :: rr =>
    if (rr.takeWhile isHexDigit).length = 0 then 0
    else 1 + (rr.takeWhile isHexDigit).length
  | _ => 0

/-- Modelled from the spec: longest valid prefix of the hexadecimal form —
`x` followed by hex digits, optionally one `.` and further hex digits
(e.g. `x10CAFE.b`).  Returns `0` when the head is not such a form. -/
def hexLen (cs : List Char) : Nat :=
  match cs with
  | 'x' :: r =>
    if (r.takeWhile isHexDigit).length = 0 then 0
    else 1 + (r.takeWhile isHexDigit).length
      + hexFracLen (r.drop (r.takeWhile isHexDigit).length)
  | _ => 0

/-- Modelled from the spec: classify the token at the head of a non-empty
input and return its type together with the number of code units it
consumes.  Hex code numbers take priority over words; a backslash that is
not a valid escape degrades to a `SYMBOL`; any character not absorbed by
the other rules is a one-character `SYMBOL`. -/
def tokLen (cs : List Char) : TokenType × Nat :=
  match cs with
  | [] => (TokenType.TEXT_END, 0)
  | c :: r =>
    if isNL c then (TokenType.LINE_END, nlLen cs)
    else if isHSpace c then (TokenType.WHITESPACE, 1 + (r.takeWhile isHSpace).length)
    else if c = '\\' then
      if escLen cs = 0 then (TokenType.SYMBOL, 1) else (TokenType.ESCAPE, escLen cs)
    else if c = 'x' then
      if hexLen cs = 0 then (TokenType.WORD, 1 + (r.takeWhile letterLike).length)
      else (TokenType.CODE_NUMBER, hexLen cs)
    else if c.isDigit then (TokenType.CODE_NUMBER, decLen cs)
    else if c = '-' then
      if decLen cs = 0 then (TokenType.SYMBOL, 1) else (TokenType.CODE_NUMBER, decLen cs)
    else if letterLike c then (TokenType.WORD, 1 + (r.takeWhile letterLike).length)
    else (TokenType.SYMBOL, 1)

/-- The content tokens of the input, starting at position `p`; fueled
structural recursion (the fuel `cs.length` always suffices because every
step consumes at least one code unit). -/
def tokensFromAux : Nat → Nat → List Char → List Token
  | 0, _, _ => []
  | _ + 1, _, [] => []
  | fuel + 1, p, cs =>
    ⟨(tokLen cs).1, p, max (tokLen cs).2 1, cs.take (max (tokLen cs).2 1)⟩ ::
      tokensFromAux fuel (p + max (tokLen cs).2 1) (cs.drop (max (tokLen cs).2 1))

/-- The content tokens of the input (everything between the sentinels). -/
def tokensFrom (p : Nat) (cs : List Char) : List Token :=
  tokensFromAux cs.length p cs

/-- Modelled from the spec: the full token stream of an input — the
sentinel `BEGIN` (position 0, length 0), the content tokens, and the
sentinel `TEXT_END` (position = input length, length 0). -/
def tokenize (s : List Char) : List Token :=
  ⟨TokenType.BEGIN, 0, 0, []⟩ :: (tokensFrom 0 s ++ [⟨TokenType.TEXT_END, s.length, 0, []⟩])

/-! ## Tokenizer: the stateful pull interface

Modelled from the spec and `TokenizerTests.TestEmpty`: the `Tokenizer`
object exposes `atEnd()` and `nextToken()`.  Per the test, `atEnd()` is
already true once `BEGIN` has been produced and the whole input has been
consumed — for the empty input this is immediately after `BEGIN`, before
`TEXT_END` has been produced; `nextToken()` then keeps returning
`TEXT_END`. -/

structure Tokenizer where
  input : List Char
  pos : Nat
  begun : Bool
deriving DecidableEq, Repr

/-- Fresh tokenizer over an input. -/
def Tokenizer.init (s : List Char) : Tokenizer :=
  ⟨s, 0, false⟩

/-- `atEnd()`: true once `BEGIN` has been produced and the scanning
position has reached the end of the input (as pinned down by
`TokenizerTests.TestEmpty`). -/
def Tokenizer.atEnd (t : Tokenizer) : Bool :=
  t.begun && decide (t.input.length ≤ t.pos)

/-- `nextToken()`: produce the next token and the successor state.  The
first call produces `BEGIN`; at the end of input it (idempotently)
produces `TEXT_END`. -/
def Tokenizer.nextToken (t : Tokenizer) : Token × Tokenizer :=
  if t.begun then
    if t.input.length ≤ t.pos then
      (⟨TokenType.TEXT_END, t.input.length, 0, []⟩, t)
    else
      let rest := t.input.drop t.pos
      let n := max (tokLen rest).2 1
      (⟨(tokLen rest).1, t.pos, n, rest.take n⟩, ⟨t.input, t.pos + n, true⟩)
  else
    (⟨TokenType.BEGIN, 0, 0, []⟩, ⟨t.input, 0, true⟩)

/-- The state after `k` calls to `nextToken()` starting from a fresh
tokenizer. -/
def stateAfter (s : List Char) : Nat → Tokenizer
  | 0 => Tokenizer.init s
  | k + 1 => ((stateAfter s k).nextToken).2

/-- The first `k` tokens produced by successive `nextToken()` calls. -/
def produceTokens : Nat → Tokenizer → List Token
  | 0, _ => []
  | k + 1, t => (t.nextToken).1 :: produceTokens k (t.nextToken).2

/-- The tokens produced by driving the pull interface until `TEXT_END` has
been produced once: `BEGIN`, all content tokens, `TEXT_END`. -/
def tokenStream (s : List Char) : List Token :=
  produceTokens ((tokensFrom 0 s).length + 2) (Tokenizer.init s)

/-! ## Highlighting parser: data model

Modelled from the spec (§4.2): the parser consumes the input once, drives a
stack of lexical modes (markup, math, code, with raw/comment/string regions
handled as scans), and pushes `HiglightingMarker`s to a listener.  The
implementation (`Parser` in `katvan_parsing.cpp`) is not in `src/`; the
model follows the spec's rules, with boundary behaviour pinned by
`tests/katvan_parsing.t.cpp` (e.g. a backtick run of exactly two backticks
is an empty raw span, and heading / list-entry markers start at the
preceding line terminator). -/

/-- Modelled from the spec: the closed set of marker kinds. -/
inductive MarkerKind where
  | COMMENT
  | STRING_LITERAL
  | MATH_DELIMITER
  | MATH_OPERATOR
  | VARIABLE_NAME
  | FUNCTION_NAME
  | NUMBER_LITERAL
  | KEYWORD
  | ESCAPE
  | EMPHASIS
  | STRONG_EMPHASIS
  | HEADING
  | LIST_ENTRY
  | TERM
  | RAW
  | REFERENCE
  | LABEL
deriving DecidableEq, Repr

/-- Modelled from the spec: a highlighting marker
`{ kind, startPos : offset, length }` (the spelling `HiglightingMarker` is
the source's). -/
structure HiglightingMarker where
  kind : MarkerKind
  startPos : Nat
  length : Nat
deriving DecidableEq, Repr

/-- The backtick character. -/
def btick : Char := Char.ofNat 96

/-- First character of an identifier-shaped run. -/
def idStartChar (c : Char) : Bool :=
  letterLike c || c = '_'

/-- Continuation character of an identifier-shaped run
(letters / digits / underscore). -/
def idContChar (c : Char) : Bool :=
  idStartChar c || c.isDigit

/-- Marker kind of an emphasis delimiter. -/
def emphKind (strong : Bool) : MarkerKind :=
  if strong then MarkerKind.STRONG_EMPHASIS else MarkerKind.EMPHASIS

/-- Math-operator characters (`+`, `-`, `=`, `&`, the line-break sigil
`\`, ...). -/
def mathOpChar (c : Char) : Bool :=
  c = '+' || c = '-' || c = '=' || c = '&' || c = '^' || c = '_' || c = '/' ||
  c = '*' || c = '<' || c = '>' || c = '!' || c = '~' || c = '\\' || c = Char.ofNat 39

/-- Modelled from the spec: the closed keyword set of code mode
(`let`, `set`, `if`, `for`, `in`, `while`, `show`, the import/include
family, and literal keywords). -/
def keywords : List (List Char) :=
  ["let".data, "set".data, "show".data, "if".data, "else".data, "for".data,
   "in".data, "while".data, "break".data, "continue".data, "return".data,
   "import".data, "include".data, "as".data, "not".data, "and".data,
   "or".data, "none".data, "auto".data, "true".data, "false".data]

/-- Whole-word keyword test. -/
def isKw (w : List Char) : Bool :=
  keywords.contains w

/-! ## Highlighting parser: region scans -/

/-- `nlLen` of a non-empty remainder, `0` for the empty one. -/
def restNlLen (cs : List Char) : Nat :=
  match cs with
  | [] => 0
  | _ => nlLen cs

/-- Length of a `//` comment at the head of the input: through the end of
the line, including its terminator (or to end of input). -/
def lineCommentLen (cs : List Char) : Nat :=
  2 + ((cs.drop 2).takeWhile (fun ch => !(isNL ch))).length
    + restNlLen (cs.drop (2 + ((cs.drop 2).takeWhile (fun ch => !(isNL ch))).length))

/-- Length of the remainder of a `/* ... */` block comment with the given
open-nesting depth: nested openers increase the depth, and only the
matching number of closers ends the scan; an unterminated comment runs to
the end of the input. -/
def blockLen : Nat → Nat → List Char → Nat
  | 0, _, cs => cs.length
  | _ + 1, _, [] => 0
  | f + 1, d, c :: rest =>
    if c = '*' ∧ rest.head? = some '/' then
      if d ≤ 1 then 2 else 2 + blockLen f (d - 1) (rest.drop 1)
    else if c = '/' ∧ rest.head? = some '*' then
      2 + blockLen f (d + 1) (rest.drop 1)
    else 1 + blockLen f d rest

/-- Index of the first position where `n` consecutive backticks start. -/
def findFence (n : Nat) : List Char → Option Nat
  | [] => none
  | c :: r =>
    if (c :: r).take n = List.replicate n btick then some 0
    else (findFence n r).map (fun i => i + 1)

/-- Length of the backtick run at the head of the input. -/
def btickRun (cs : List Char) : Nat :=
  (cs.takeWhile (fun ch => ch = btick)).length

/-- Length of the raw span opened by the backtick run at the head of the
input: a run of exactly two backticks is an empty raw span (as pinned by
`HiglightingParserTests.RawContent`); otherwise the run is a fence whose
exact length must recur to close the span, and an unterminated span runs
to the end of the input. -/
def rawSpanLen (cs : List Char) : Nat :=
  if btickRun cs = 2 then 2
  else
    match findFence (btickRun cs) (cs.drop (btickRun cs)) with
    | some i => btickRun cs + i + btickRun cs
    | none => cs.length

/-- Scan of a string literal after its opening quote: consumed length
(through the closing quote, or to end of input), together with the
escape sequences found inside as `(offset, length)` pairs relative to the
scan start.  A backslash escapes the following character (a Unicode
escape is consumed whole). -/
def strScan : Nat → List Char → Nat × List (Nat × Nat)
  | 0, _ => (0, [])
  | _ + 1, [] => (0, [])
  | f + 1, c :: r =>
    if c = '"' then (1, [])
    else if c = '\\' then
      match r with
      | [] => (1, [])
      | _ :: _ =>
        ((strScan f ((c :: r).drop (max (escLen (c :: r)) 2))).1
            + max (escLen (c :: r)) 2,
         (0, max (escLen (c :: r)) 2) ::
           (strScan f ((c :: r).drop (max (escLen (c :: r)) 2))).2.map
             (fun q => (q.1 + max (escLen (c :: r)) 2, q.2)))
    else
      ((strScan f r).1 + 1, (strScan f r).2.map (fun q => (q.1 + 1, q.2)))

/-- Scan of a dotted identifier chain: total consumed length and the
`(offset, length)` of each dot-separated segment. -/
def chainScan : Nat → List Char → Nat × List (Nat × Nat)
  | 0, _ => (0, [])
  | f + 1, cs =>
    if (cs.takeWhile idContChar).length = 0 then (0, [])
    else
      match cs.drop ((cs.takeWhile idContChar).length) with
      | '.' :: d :: _ =>
        if idStartChar d then
          ((cs.takeWhile idContChar).length + 1
              + (chainScan f (cs.drop ((cs.takeWhile idContChar).length + 1))).1,
           (0, (cs.takeWhile idContChar).length) ::
             (chainScan f (cs.drop ((cs.takeWhile idContChar).length + 1))).2.map
               (fun q => (q.1 + ((cs.takeWhile idContChar).length + 1), q.2)))
        else ((cs.takeWhile idContChar).length, [(0, (cs.takeWhile idContChar).length)])
      | _ => ((cs.takeWhile idContChar).length, [(0, (cs.takeWhile idContChar).length)])

/-- Length of a unit suffix attached to a numeric literal in code mode
(letters, or a percent sign). -/
def unitLen (cs : List Char) : Nat :=
  match cs with
  | '%' :: _ => 1
  | _ => (cs.takeWhile (fun ch => ch.isAlpha)).length

/-! ## Highlighting parser: line-start analysis -/

/-- The input after leading horizontal space. -/
def afterIndent (cs : List Char) : List Char :=
  cs.drop ((cs.takeWhile isHSpace).length)

/-- Modelled from the spec: a heading starts here — after optional leading
whitespace, a run of one or more `=` followed by whitespace. -/
def headingAhead (cs : List Char) : Bool :=
  decide (1 ≤ ((afterIndent cs).takeWhile (fun ch => ch = '=')).length) &&
  (match ((afterIndent cs).drop
      (((afterIndent cs).takeWhile (fun ch => ch = '=')).length)).head? with
   | some c2 => isHSpace c2
   | none => false)

/-- A list-entry glyph. -/
def listGlyph (c : Char) : Bool :=
  c = '-' || c = '+' || c = '/'

/-- Modelled from the spec: a list entry starts here — after optional
indentation, a `-`/`+`/`/` glyph immediately followed by whitespace.
Returns the consumed length (indent, glyph and trailing whitespace) and
whether the glyph is the description-list `/`. -/
def listAhead (cs : List Char) : Option (Nat × Bool) :=
  match (afterIndent cs).head? with
  | some c =>
    if listGlyph c then
      if 1 ≤ (((afterIndent cs).drop 1).takeWhile isHSpace).length then
        some ((cs.takeWhile isHSpace).length + 1
            + (((afterIndent cs).drop 1).takeWhile isHSpace).length,
          c = '/')
      else none
    else none
  | none => none

/-- Modelled from the spec: the term of a description list runs up to (not
including) a following `:` on the same line; `none` when no `:` is found
before the line ends. -/
def termLen (cs : List Char) : Option Nat :=
  if (cs.drop ((cs.takeWhile (fun ch => !(ch = ':') && !(isNL ch))).length)).head?
      = some ':' then
    some ((cs.takeWhile (fun ch => !(ch = ':') && !(isNL ch))).length)
  else none

/-- Handle the patterns recognized at the start of a line.  `q` is the
position the markers start at (the preceding line terminator, or 0 at the
start of the document, as pinned by the heading/list tests), `p0` the
position of `rest` (the text after the terminator).  Returns emitted
markers, extra consumed length, and an opened heading position. -/
def lineOpen (q p0 : Nat) (rest : List Char) : List HiglightingMarker × Nat × Option Nat :=
  if headingAhead rest then ([], 0, some q)
  else
    match listAhead rest with
    | some (k, isTerm) =>
      (⟨MarkerKind.LIST_ENTRY, q, p0 + k - q⟩ ::
        (if isTerm then
          match termLen (rest.drop k) with
          | some t => [⟨MarkerKind.TERM, p0 + k, t⟩]
          | none => []
        else []),
       k, none)
    | none => ([], 0, none)

/-- Horizontal space directly after the line terminator at the head. -/
def wsAfterNl (cs : List Char) : Nat :=
  ((cs.drop (nlLen cs)).takeWhile isHSpace).length

/-- The input from the second line terminator of a candidate paragraph
break. -/
def sndNl (cs : List Char) : List Char :=
  cs.drop (nlLen cs + wsAfterNl cs)

/-- Modelled from the spec: a paragraph break — a line terminator,
optional horizontal space, and another line terminator.  Returns the total
consumed length, or `none` when the line is not blank. -/
def paraBreakLen (cs : List Char) : Option Nat :=
  match (sndNl cs).head? with
  | some c2 =>
    if isNL c2 then some (nlLen cs + wsAfterNl cs + nlLen (sndNl cs))
    else none
  | none => none

/-! ## Highlighting parser: modes and steps -/

/-- Modelled from the spec: the lexical mode stack entries.  A markup
frame carries its open emphasis delimiters (strong?, start position), an
open heading start, and whether it is a bracketed content block inside
code; code frames carry their bracket-nesting depth. -/
inductive PMode where
  | markup (emph : List (Bool × Nat)) (heading : Option Nat) (inBracket : Bool)
  | math
  | codeParen (depth : Nat)
  | codeBrace (depth : Nat)
  | codeLine
deriving DecidableEq, Repr

/-- Markers emitted when a mode frame is closed implicitly at position `e`
(end of input): open headings and emphasis spans close there. -/
def closeMode (e : Nat) : PMode → List HiglightingMarker
  | PMode.markup emph heading _ =>
    (match heading with
     | some h => [⟨MarkerKind.HEADING, h, e - h⟩]
     | none => []) ++
    emph.map (fun fr => ⟨emphKind fr.1, fr.2, e - fr.2⟩)
  | _ => []

/-- Close every frame of the stack implicitly at position `e`. -/
def closeAll (e : Nat) (stack : List PMode) : List HiglightingMarker :=
  (stack.map (closeMode e)).flatten

/-- Pop open emphasis frames down to (and including) the first frame of
the given kind; `none` when no such frame is open. -/
def splitEmph (strong : Bool) : List (Bool × Nat) →
    Option (List (Bool × Nat) × List (Bool × Nat))
  | [] => none
  | fr :: t =>
    if fr.1 = strong then some ([fr], t)
    else
      match splitEmph strong t with
      | none => none
      | some (pop, kept) => some (fr :: pop, kept)

/-- Handle a `#` in markup or math mode: `#{` opens a code block; `#` and
a keyword emits KEYWORD and switches the line into code mode; `#` and an
identifier followed by `(` emits FUNCTION_NAME and opens the argument
list in code mode; a bare `#identifier` emits VARIABLE_NAME.  Returns
markers, consumed length and the mode to push. -/
def hashAction (p : Nat) (cs : List Char) : List HiglightingMarker × Nat × Option PMode :=
  match cs with
  | [] => ([], 1, none)
  | _ :: r =>
    match r with
    | [] => ([], 1, none)
    | c :: _ =>
      if c = '{' then ([], 2, some (PMode.codeBrace 1))
      else if idStartChar c then
        if isKw (r.takeWhile idContChar) then
          ([⟨MarkerKind.KEYWORD, p, 1 + (r.takeWhile idContChar).length⟩],
           1 + (r.takeWhile idContChar).length, some PMode.codeLine)
        else if (r.drop ((r.takeWhile idContChar).length)).head? = some '(' then
          ([⟨MarkerKind.FUNCTION_NAME, p, 1 + (r.takeWhile idContChar).length⟩],
           1 + (r.takeWhile idContChar).length + 1, some (PMode.codeParen 1))
        else
          ([⟨MarkerKind.VARIABLE_NAME, p, 1 + (r.takeWhile idContChar).length⟩],
           1 + (r.takeWhile idContChar).length, none)
      else ([], 1, none)

/-- Marker for one segment of an identifier chain: FUNCTION_NAME when the
segment is immediately followed by `(`, VARIABLE_NAME otherwise. -/
def segMarker (p consumed : Nat) (callAfter : Bool) (q : Nat × Nat) : HiglightingMarker :=
  if callAfter && decide (q.1 + q.2 = consumed) then
    ⟨MarkerKind.FUNCTION_NAME, p + q.1, q.2⟩
  else ⟨MarkerKind.VARIABLE_NAME, p + q.1, q.2⟩

/-- Markers for an identifier chain in math mode: dotted chains mark every
segment; a single bare identifier is marked only when it has at least two
characters (as pinned by `HiglightingParserTests.MathExpressions`), or is
a function application. -/
def mathIdMarkers (p consumed : Nat) (callAfter : Bool) (segs : List (Nat × Nat)) :
    List HiglightingMarker :=
  match segs with
  | [q] =>
    if callAfter then [⟨MarkerKind.FUNCTION_NAME, p + q.1, q.2⟩]
    else if 2 ≤ q.2 then [⟨MarkerKind.VARIABLE_NAME, p + q.1, q.2⟩]
    else []
  | _ => segs.map (segMarker p consumed callAfter)

/-- Markers for an identifier chain in code mode. -/
def codeIdMarkers (p consumed : Nat) (callAfter : Bool) (segs : List (Nat × Nat)) :
    List HiglightingMarker :=
  segs.map (segMarker p consumed callAfter)

/-- Markup-mode handling of a line terminator at the head of `cs`
(position `p`): close the open heading when no emphasis is open, close
everything at a paragraph break, and recognize the heading / list-entry
patterns of the following line. -/
def markupNl (p : Nat) (cs : List Char) (emph : List (Bool × Nat))
    (heading : Option Nat) (inBr : Bool) (rest : List PMode) :
    List HiglightingMarker × Nat × List PMode :=
  match paraBreakLen cs with
  | some total =>
    match lineOpen (p + nlLen cs + wsAfterNl cs) (p + total) (cs.drop total) with
    | (lm, k2, hNew) =>
      ((match heading with
        | some h =>
          [⟨MarkerKind.HEADING, h,
            (if emph.isEmpty then p + nlLen cs else p + total) - h⟩]
        | none => []) ++
       emph.map (fun fr => ⟨emphKind fr.1, fr.2, p + total - fr.2⟩) ++ lm,
       total + k2,
       PMode.markup [] hNew inBr :: rest)
  | none =>
    match lineOpen p (p + nlLen cs) (cs.drop (nlLen cs)) with
    | (lm, k2, hNew) =>
      ((match heading with
        | some h =>
          if emph.isEmpty then [⟨MarkerKind.HEADING, h, p + nlLen cs - h⟩]
          else []
        | none => []) ++ lm,
       nlLen cs + k2,
       PMode.markup emph
         (match heading with
          | some h => if emph.isEmpty then hNew else some h
          | none => hNew)
         inBr :: rest)

/-- One step of markup mode on input `c :: r` at position `p`. -/
def markupStep (p : Nat) (c : Char) (r : List Char) (emph : List (Bool × Nat))
    (heading : Option Nat) (inBr : Bool) (rest : List PMode) :
    List HiglightingMarker × Nat × List PMode :=
  if isNL c then markupNl p (c :: r) emph heading inBr rest
  else if 0 < escLen (c :: r) then
    ([⟨MarkerKind.ESCAPE, p, escLen (c :: r)⟩], escLen (c :: r),
     PMode.markup emph heading inBr :: rest)
  else if c = btick then
    ([⟨MarkerKind.RAW, p, rawSpanLen (c :: r)⟩], rawSpanLen (c :: r),
     PMode.markup emph heading inBr :: rest)
  else if c = '/' ∧ r.head? = some '/' then
    ([⟨MarkerKind.COMMENT, p, lineCommentLen (c :: r)⟩], lineCommentLen (c :: r),
     PMode.markup emph heading inBr :: rest)
  else if c = '/' ∧ r.head? = some '*' then
    ([⟨MarkerKind.COMMENT, p, 2 + blockLen (r.drop 1).length 1 (r.drop 1)⟩],
     2 + blockLen (r.drop 1).length 1 (r.drop 1),
     PMode.markup emph heading inBr :: rest)
  else if c = '$' then
    ([⟨MarkerKind.MATH_DELIMITER, p, 1⟩], 1,
     PMode.math :: PMode.markup emph heading inBr :: rest)
  else if c = '_' ∨ c = '*' then
    match splitEmph (c = '*') emph with
    | some (pop, kept) =>
      (pop.map (fun fr => ⟨emphKind fr.1, fr.2, p + 1 - fr.2⟩), 1,
       PMode.markup kept heading inBr :: rest)
    | none =>
      ([], 1, PMode.markup ((c = '*', p) :: emph) heading inBr :: rest)
  else if c = '@' then
    if 0 < (r.takeWhile idContChar).length then
      ([⟨MarkerKind.REFERENCE, p, 1 + (r.takeWhile idContChar).length⟩],
       1 + (r.takeWhile idContChar).length,
       PMode.markup emph heading inBr :: rest)
    else ([], 1, PMode.markup emph heading inBr :: rest)
  else if c = '<' then
    if 0 < (r.takeWhile idContChar).length ∧
        (r.drop ((r.takeWhile idContChar).length)).head? = some '>' then
      ([⟨MarkerKind.LABEL, p, (r.takeWhile idContChar).length + 2⟩],
       (r.takeWhile idContChar).length + 2,
       PMode.markup emph heading inBr :: rest)
    else ([], 1, PMode.markup emph heading inBr :: rest)
  else if c = '#' then
    match hashAction p (c :: r) with
    | (ms, k, push) =>
      (ms, k,
       match push with
       | some md => md :: PMode.markup emph heading inBr :: rest
       | none => PMode.markup emph heading inBr :: rest)
  else if inBr ∧ c = ']' then ([], 1, rest)
  else ([], 1, PMode.markup emph heading inBr :: rest)

/-- One step of math mode on input `c :: r` at position `p`. -/
def mathStep (p : Nat) (c : Char) (r : List Char) (rest : List PMode) :
    List HiglightingMarker × Nat × List PMode :=
  if 0 < escLen (c :: r) then
    ([⟨MarkerKind.ESCAPE, p, escLen (c :: r)⟩], escLen (c :: r), PMode.math :: rest)
  else if c = '$' then
    ([⟨MarkerKind.MATH_DELIMITER, p, 1⟩], 1, rest)
  else if c = '"' then
    match strScan r.length r with
    | (n, escs) =>
      (⟨MarkerKind.STRING_LITERAL, p, 1 + n⟩ ::
        escs.map (fun q => ⟨MarkerKind.ESCAPE, p + 1 + q.1, q.2⟩),
       1 + n, PMode.math :: rest)
  else if c = '/' ∧ r.head? = some '/' then
    ([⟨MarkerKind.COMMENT, p, lineCommentLen (c :: r)⟩], lineCommentLen (c :: r),
     PMode.math :: rest)
  else if c = '/' ∧ r.head? = some '*' then
    ([⟨MarkerKind.COMMENT, p, 2 + blockLen (r.drop 1).length 1 (r.drop 1)⟩],
     2 + blockLen (r.drop 1).length 1 (r.drop 1), PMode.math :: rest)
  else if c = '#' then
    match hashAction p (c :: r) with
    | (ms, k, push) =>
      (ms, k,
       match push with
       | some md => md :: PMode.math :: rest
       | none => PMode.math :: rest)
  else if idStartChar c then
    match chainScan (c :: r).length (c :: r) with
    | (n, segs) =>
      (mathIdMarkers p (max n 1)
        (decide (((c :: r).drop (max n 1)).head? = some '(')) segs,
       max n 1, PMode.math :: rest)
  else if mathOpChar c then
    ([⟨MarkerKind.MATH_OPERATOR, p, 1⟩], 1, PMode.math :: rest)
  else ([], 1, PMode.math :: rest)

/-- One step of code mode (argument list, block, or line) on input
`c :: r` at position `p`. -/
def codeStep (p : Nat) (c : Char) (r : List Char) (md : PMode) (rest : List PMode) :
    List HiglightingMarker × Nat × List PMode :=
  if isNL c then
    match md with
    | PMode.codeLine => ([], 0, rest)
    | _ => ([], nlLen (c :: r), md :: rest)
  else if 0 < escLen (c :: r) then
    ([⟨MarkerKind.ESCAPE, p, escLen (c :: r)⟩], escLen (c :: r), md :: rest)
  else if c = '"' then
    match strScan r.length r with
    | (n, escs) =>
      (⟨MarkerKind.STRING_LITERAL, p, 1 + n⟩ ::
        escs.map (fun q => ⟨MarkerKind.ESCAPE, p + 1 + q.1, q.2⟩),
       1 + n, md :: rest)
  else if c = '/' ∧ r.head? = some '/' then
    ([⟨MarkerKind.COMMENT, p, lineCommentLen (c :: r)⟩], lineCommentLen (c :: r),
     md :: rest)
  else if c = '/' ∧ r.head? = some '*' then
    ([⟨MarkerKind.COMMENT, p, 2 + blockLen (r.drop 1).length 1 (r.drop 1)⟩],
     2 + blockLen (r.drop 1).length 1 (r.drop 1), md :: rest)
  else if c = '(' then
    match md with
    | PMode.codeParen d => ([], 1, PMode.codeParen (d + 1) :: rest)
    | _ => ([], 1, PMode.codeParen 1 :: md :: rest)
  else if c = ')' then
    match md with
    | PMode.codeParen 1 => ([], 1, rest)
    | PMode.codeParen (d + 2) => ([], 1, PMode.codeParen (d + 1) :: rest)
    | _ => ([], 1, md :: rest)
  else if c = '{' then
    match md with
    | PMode.codeBrace d => ([], 1, PMode.codeBrace (d + 1) :: rest)
    | _ => ([], 1, PMode.codeBrace 1 :: md :: rest)
  else if c = '}' then
    match md with
    | PMode.codeBrace 1 => ([], 1, rest)
    | PMode.codeBrace (d + 2) => ([], 1, PMode.codeBrace (d + 1) :: rest)
    | _ => ([], 1, md :: rest)
  else if c = '[' then
    ([], 1, PMode.markup [] none true :: md :: rest)
  else if c = 'x' ∧ 0 < hexLen (c :: r) then
    ([⟨MarkerKind.NUMBER_LITERAL, p,
        hexLen (c :: r) + unitLen ((c :: r).drop (hexLen (c :: r)))⟩],
     hexLen (c :: r) + unitLen ((c :: r).drop (hexLen (c :: r))), md :: rest)
  else if (c.isDigit ∨ c = '-') ∧ 0 < decLen (c :: r) then
    ([⟨MarkerKind.NUMBER_LITERAL, p,
        decLen (c :: r) + unitLen ((c :: r).drop (decLen (c :: r)))⟩],
     decLen (c :: r) + unitLen ((c :: r).drop (decLen (c :: r))), md :: rest)
  else if idStartChar c then
    match chainScan (c :: r).length (c :: r) with
    | (n, segs) =>
      if segs.length = 1 ∧ isKw ((c :: r).take (max n 1)) then
        ([⟨MarkerKind.KEYWORD, p, max n 1⟩], max n 1, md :: rest)
      else
        (codeIdMarkers p (max n 1)
          (decide (((c :: r).drop (max n 1)).head? = some '(')) segs,
         max n 1, md :: rest)
  else ([], 1, md :: rest)

/-- One step of the parser: dispatch on the current mode. -/
def doStep (p : Nat) (c : Char) (r : List Char) (m : PMode) (rest : List PMode) :
    List HiglightingMarker × Nat × List PMode :=
  match m with
  | PMode.markup e h b => markupStep p c r e h b rest
  | PMode.math => mathStep p c r rest
  | md => codeStep p c r md rest

/-- The fueled parser loop: run steps until the input is exhausted, then
close all open constructs implicitly at end of input. -/
def runP : Nat → Nat → List Char → List PMode → List HiglightingMarker
  | 0, _, _, _ => []
  | _ + 1, p, [], stack => closeAll p stack
  | _ + 1, _, _ :: _, [] => []
  | fuel + 1, p, c :: r, m :: rest =>
    match doStep p c r m rest with
    | (ms, k, st) => ms ++ runP fuel (p + k) ((c :: r).drop k) st

/-- Modelled from the spec: `parse()` — run the whole input in markup mode
(checking for line-start constructs at the start of the document) and
collect the emitted markers.  The fuel `2 * length + 2` always suffices:
every step either consumes input or pops a frame, and frames are only
pushed by consuming steps. -/
def parse (s : List Char) : List HiglightingMarker :=
  match lineOpen 0 0 s with
  | (lm, k, h) =>
    lm ++ runP (2 * s.length + 2) k (s.drop k) [PMode.markup [] h false]

/-- One scanning step: drop the consumed code units. -/
def chomp (cs : List Char) : List Char :=
  cs.drop (max (tokLen cs).2 1)

/-- The spans of a token list tile the input contiguously starting at a
given offset: each token starts where the previous one ended, and its
recorded length is the length of its text. -/
def contiguousFrom : Nat → List Token → Prop
  | _, [] => True
  | q, t :: ts => t.startPos = q ∧ t.length = t.text.length ∧ contiguousFrom (q + t.length) ts

/-- Well-formedness of one mode frame at parser position `p`: all stored
start positions lie at or before `p`. -/
def frameOK (p : Nat) : PMode → Prop
  | PMode.markup emph heading _ =>
    (∀ fr ∈ emph, fr.2 ≤ p) ∧ (∀ h, heading = some h → h ≤ p)
  | _ => True

/-- Well-formedness of the whole mode stack at position `p`. -/
def stackOK (p : Nat) (st : List PMode) : Prop :=
  ∀ m ∈ st, frameOK p m

/-- Result contract of one parser step at position `p` over a remainder of
the given length: the consumed count stays within the remainder, every
emitted marker ends within it, and the new stack is well formed at the
new position. -/
def stepRes (p len : Nat) (res : List HiglightingMarker × Nat × List PMode) : Prop :=
  res.2.1 ≤ len ∧
  (∀ mk ∈ res.1, mk.startPos + mk.length ≤ p + len) ∧
  stackOK (p + res.2.1) res.2.2

/-! ## Spell checker (embedded from `src/katvan_spellchecker.cpp`)

`QString` values are embedded as `List Char`.  The NFD normalization
(`QString::normalized(QString::NormalizationForm_D)`) and the Hunspell
lookup (`speller.spell`) are opaque to the checker logic and appear as
function parameters of the model; the word-boundary iteration of
`QTextBoundaryFinder` appears as the list of boundary positions with
their `EndOfItem` flag, and the `tryLock` outcome as a boolean. -/

/-- The spell-checker state that `checkWord` / `checkSpelling` read:
the personal dictionary (`d_personalDictionary`, a set of NFD-normalized
words) and the current dictionary name (`d_currentDictName`). -/
structure SpellChecker where
  personalDictionary : List (List Char)
  currentDictName : List Char
deriving DecidableEq, Repr

/-- `SpellChecker::checkWord`: the word is accepted when its NFD
normalization is in the personal dictionary; otherwise the (original,
unnormalized) word is deferred to the Hunspell speller. -/
def checkWord (nfd : List Char → List Char) (spell : List Char → Bool)
    (sc : SpellChecker) (word : List Char) : Bool :=
  if nfd word ∈ sc.personalDictionary then true
  else spell word

/-- `SpellChecker::addToPersonalDictionary`: insert the NFD normalization
of the word into the personal dictionary (`QSet::insert`). -/
def addToPersonalDictionary (nfd : List Char → List Char) (sc : SpellChecker)
    (word : List Char) : SpellChecker :=
  { sc with personalDictionary := sc.personalDictionary.insert (nfd word) }

/-- The word-boundary loop of `SpellChecker::checkSpelling`: walk the
boundary positions keeping `prevPos`; at each boundary flagged
`EndOfItem` check the word sliced between `prevPos` and the boundary and
report its span when the check fails. -/
def spellLoop (check : List Char → Bool) (text : List Char) :
    Nat → List (Nat × Bool) → List (Nat × Nat)
  | _, [] => []
  | prevPos, (pos, isEnd) :: bs =>
    if isEnd then
      (if check ((text.drop prevPos).take (pos - prevPos)) then []
       else [(prevPos, pos - prevPos)]) ++ spellLoop check text pos bs
    else spellLoop check text pos bs

/-- `SpellChecker::checkSpelling`: empty result when no dictionary is set
(`d_currentDictName.isEmpty()`), empty result when the speller lock
cannot be taken, and otherwise the misspelled-word spans found by the
boundary loop. -/
def checkSpelling (nfd : List Char → List Char) (spell : List Char → Bool)
    (lockOk : Bool) (boundaries : List (Nat × Bool)) (sc : SpellChecker)
    (text : List Char) : List (Nat × Nat) :=
  if sc.currentDictName = [] then []
  else if lockOk then spellLoop (checkWord nfd spell sc) text 0 boundaries
  else []

/-! ## Tokenizer: basic bounds -/

theorem ltw_le (p : Char → Bool) (l : List Char) : (l.takeWhile p).length ≤ l.length := by
  induction l with
  | nil => simp
  | cons a t ih =>
    simp only [List.takeWhile]
    cases p a
    · simp
    · simp
      omega

theorem uniEscLen_le (cs : List Char) : uniEscLen cs ≤ cs.length := by
  unfold uniEscLen
  split
  · next rr =>
    split
    · next hc =>
      have hh : (rr.drop (rr.takeWhile isHexDigit).length).head? = some '}' := hc.2
      have hne : rr.drop (rr.takeWhile isHexDigit).length ≠ [] := by
        intro h0
        rw [h0] at hh
        simp at hh
      have hlt : (rr.takeWhile isHexDigit).length < rr.length := by
        by_contra hge
        push_neg at hge
        exact hne (List.drop_eq_nil_of_le hge)
      simp only [List.length_cons]
      omega
    · omega
  · omega

theorem escLen_le (cs : List Char) : escLen cs ≤ cs.length := by
  unfold escLen
  split
  · next c rest =>
    split
    · split
      · omega
      · have := uniEscLen_le rest
        simp only [List.length_cons]
        omega
    · split <;> simp
  · omega

theorem fracLen_le (cs : List Char) : fracLen cs ≤ cs.length := by
  unfold fracLen
  split
  · next rr =>
    have := ltw_le Char.isDigit rr
    split
    · omega
    · simp only [List.length_cons]
      omega
  · omega

theorem signLen_le (cs : List Char) : signLen cs ≤ cs.length := by
  unfold signLen
  split
  · split <;> simp
  · omega

theorem expLen_le (cs : List Char) : expLen cs ≤ cs.length := by
  unfold expLen
  split
  · next c rr =>
    split
    · have hsg := signLen_le rr
      have hd3 := ltw_le Char.isDigit (rr.drop (signLen rr))
      rw [List.length_drop] at hd3
      split
      · omega
      · simp only [List.length_cons]
        omega
    · omega
  · omega

theorem decBody_le (cs : List Char) : decBody cs ≤ cs.length := by
  unfold decBody
  split
  · omega
  · have hd1 := ltw_le Char.isDigit cs
    have hf := fracLen_le (cs.drop (cs.takeWhile Char.isDigit).length)
    rw [List.length_drop] at hf
    have he := expLen_le (cs.drop ((cs.takeWhile Char.isDigit).length
        + fracLen (cs.drop (cs.takeWhile Char.isDigit).length)))
    rw [List.length_drop] at he
    omega

theorem decLen_le (cs : List Char) : decLen cs ≤ cs.length := by
  unfold decLen
  split
  · next r =>
    have := decBody_le r
    split
    · omega
    · simp only [List.length_cons]
      omega
  · exact decBody_le cs

theorem hexFracLen_le (cs : List Char) : hexFracLen cs ≤ cs.length := by
  unfold hexFracLen
  split
  · next rr =>
    have := ltw_le isHexDigit rr
    split
    · omega
    · simp only [List.length_cons]
      omega
  · omega

theorem hexLen_le (cs : List Char) : hexLen cs ≤ cs.length := by
  unfold hexLen
  split
  · next r =>
    split
    · omega
    · have hd1 := ltw_le isHexDigit r
      have hf := hexFracLen_le (r.drop (r.takeWhile isHexDigit).length)
      rw [List.length_drop] at hf
      simp only [List.length_cons]
      omega
  · omega

theorem nlLen_le (cs : List Char) (h : cs ≠ []) : nlLen cs ≤ cs.length := by
  unfold nlLen
  split
  · simp
  · cases cs with
    | nil => exact absurd rfl h
    | cons a t => simp

theorem tokLen_le (cs : List Char) : (tokLen cs).2 ≤ cs.length := by
  unfold tokLen
  split
  · simp
  · next c r =>
    have h1 : 1 ≤ (c :: r).length := by simp
    split
    · exact nlLen_le _ (by simp)
    · split
      · have := ltw_le isHSpace r
        simp
        omega
      · split
        · split
          · simpa using h1
          · exact escLen_le _
        · split
          · split
            · next h0 =>
              have := ltw_le letterLike r
              simp
              omega
            · exact hexLen_le _
          · split
            · exact decLen_le _
            · split
              · split
                · simpa using h1
                · exact decLen_le _
              · split
                · have := ltw_le letterLike r
                  simp
                  omega
                · simpa using h1

/-! ## Tokenizer: reconstruction and contiguity (spans tile the input) -/

theorem chomp_nil : chomp [] = [] := by
  simp [chomp]

theorem chomp_length_lt (cs : List Char) (h : cs ≠ []) : (chomp cs).length < cs.length := by
  have h1 : 1 ≤ cs.length := by
    cases cs with
    | nil => exact absurd rfl h
    | cons a t => simp
  unfold chomp
  rw [List.length_drop]
  omega

theorem tokensFromAux_fuel : ∀ f g p cs, cs.length ≤ f → cs.length ≤ g →
    tokensFromAux f p cs = tokensFromAux g p cs := by
  intro f
  induction f with
  | zero =>
    intro g p cs hf _
    have : cs = [] := List.length_eq_zero.mp (Nat.le_zero.mp hf)
    subst this
    cases g <;> simp [tokensFromAux]
  | succ f ih =>
    intro g p cs hf hg
    cases cs with
    | nil => cases g <;> simp [tokensFromAux]
    | cons c r =>
      cases g with
      | zero => simp at hg
      | succ g =>
        simp only [tokensFromAux]
        congr 1
        have hlt : ((c :: r).drop (max (tokLen (c :: r)).2 1)).length < (c :: r).length := by
          have := chomp_length_lt (c :: r) (by simp)
          simpa [chomp] using this
        simp only [List.length_cons] at hf hg hlt
        apply ih
        · omega
        · omega

theorem tokensFrom_nil (p : Nat) : tokensFrom p [] = [] := rfl

theorem tokensFrom_cons (p : Nat) (cs : List Char) (h : cs ≠ []) :
    tokensFrom p cs =
      ⟨(tokLen cs).1, p, max (tokLen cs).2 1, cs.take (max (tokLen cs).2 1)⟩ ::
        tokensFrom (p + max (tokLen cs).2 1) (chomp cs) := by
  cases cs with
  | nil => exact absurd rfl h
  | cons c r =>
    show tokensFromAux ((c :: r).length) p (c :: r) = _
    simp only [List.length_cons, tokensFromAux]
    congr 1
    apply tokensFromAux_fuel
    · have hlt := chomp_length_lt (c :: r) (by simp)
      simp only [chomp, List.length_cons] at hlt
      omega
    · exact le_rfl

theorem tokensFromAux_length_indep : ∀ N p q cs, cs.length ≤ N →
    (tokensFrom p cs).length = (tokensFrom q cs).length := by
  intro N
  induction N with
  | zero =>
    intro p q cs h
    have : cs = [] := List.length_eq_zero.mp (Nat.le_zero.mp h)
    subst this
    rfl
  | succ N ih =>
    intro p q cs h
    cases cs with
    | nil => rfl
    | cons c r =>
      rw [tokensFrom_cons p _ (by simp), tokensFrom_cons q _ (by simp)]
      simp only [List.length_cons]
      have hlt := chomp_length_lt (c :: r) (by simp)
      have := ih (p + max (tokLen (c :: r)).2 1) (q + max (tokLen (c :: r)).2 1)
        (chomp (c :: r)) (by simp only [List.length_cons] at h hlt ⊢; omega)
      omega

theorem tokensFrom_length_indep (p q : Nat) (cs : List Char) :
    (tokensFrom p cs).length = (tokensFrom q cs).length :=
  tokensFromAux_length_indep cs.length p q cs le_rfl

theorem tokensFromAux_flatten : ∀ f p cs, cs.length ≤ f →
    ((tokensFromAux f p cs).map Token.text).flatten = cs := by
  intro f
  induction f with
  | zero =>
    intro p cs hf
    have : cs = [] := List.length_eq_zero.mp (Nat.le_zero.mp hf)
    subst this
    rfl
  | succ f ih =>
    intro p cs hf
    cases cs with
    | nil => rfl
    | cons c r =>
      simp only [tokensFromAux, List.map_cons, List.flatten_cons]
      rw [ih]
      · exact List.take_append_drop _ _
      · have hlt := chomp_length_lt (c :: r) (by simp)
        simp only [chomp, List.length_cons] at hlt
        simp only [List.length_cons] at hf
        omega

theorem tokensFrom_contiguous : ∀ N cs p, cs.length ≤ N →
    contiguousFrom p (tokensFrom p cs ++ [⟨TokenType.TEXT_END, p + cs.length, 0, []⟩]) := by
  intro N
  induction N with
  | zero =>
    intro cs p h
    have : cs = [] := List.length_eq_zero.mp (Nat.le_zero.mp h)
    subst this
    simp [tokensFrom_nil, contiguousFrom]
  | succ N ih =>
    intro cs p h
    cases cs with
    | nil => simp [tokensFrom_nil, contiguousFrom]
    | cons c r =>
      rw [tokensFrom_cons p _ (by simp)]
      set n := max (tokLen (c :: r)).2 1 with hn
      have hnle : n ≤ (c :: r).length := by
        have := tokLen_le (c :: r)
        simp at this ⊢
        omega
      refine ⟨rfl, ?_, ?_⟩
      · show n = ((c :: r).take n).length
        rw [List.length_take, Nat.min_eq_left hnle]
      · have hchomp : (chomp (c :: r)).length = (c :: r).length - n := by
          rw [hn]
          simp [chomp, List.length_drop]
        have heq : p + (c :: r).length = (p + n) + (chomp (c :: r)).length := by
          rw [hchomp]
          simp only [List.length_cons] at hnle ⊢
          omega
        have hih := ih (chomp (c :: r)) (p + n) (by
          have := chomp_length_lt (c :: r) (by simp)
          simp only [List.length_cons] at h this ⊢
          omega)
        show contiguousFrom (p + n) (tokensFrom (p + n) (chomp (c :: r)) ++
          [⟨TokenType.TEXT_END, p + (c :: r).length, 0, []⟩])
        rw [heq]
        exact hih

/-! ## Tokenizer: the stateful interface produces exactly the stream -/

theorem nextToken_fresh (s : List Char) (pos : Nat) :
    Tokenizer.nextToken ⟨s, pos, false⟩ = (⟨TokenType.BEGIN, 0, 0, []⟩, ⟨s, 0, true⟩) := by
  simp [Tokenizer.nextToken]

theorem nextToken_end (s : List Char) (pos : Nat) (h : s.length ≤ pos) :
    Tokenizer.nextToken ⟨s, pos, true⟩ =
      (⟨TokenType.TEXT_END, s.length, 0, []⟩, ⟨s, pos, true⟩) := by
  simp [Tokenizer.nextToken, h]

theorem nextToken_mid (s : List Char) (pos : Nat) (h : pos < s.length) :
    Tokenizer.nextToken ⟨s, pos, true⟩ =
      (⟨(tokLen (s.drop pos)).1, pos, max (tokLen (s.drop pos)).2 1,
          (s.drop pos).take (max (tokLen (s.drop pos)).2 1)⟩,
        ⟨s, pos + max (tokLen (s.drop pos)).2 1, true⟩) := by
  simp [Tokenizer.nextToken, Nat.not_le.mpr h]

theorem atEnd_mk (s : List Char) (pos : Nat) (b : Bool) :
    Tokenizer.atEnd ⟨s, pos, b⟩ = (b && decide (s.length ≤ pos)) := rfl

theorem produceTokens_succ (k : Nat) (t : Tokenizer) :
    produceTokens (k + 1) t = (t.nextToken).1 :: produceTokens k (t.nextToken).2 := rfl

theorem stateAfter_spec (s : List Char) : ∀ k,
    stateAfter s (k + 1) = ⟨s, s.length - (chomp^[k] s).length, true⟩ ∧
      s.drop (s.length - (chomp^[k] s).length) = chomp^[k] s := by
  intro k
  induction k with
  | zero =>
    constructor
    · show ((Tokenizer.init s).nextToken).2 = _
      rw [show Tokenizer.init s = ⟨s, 0, false⟩ from rfl, nextToken_fresh]
      simp
    · simp
  | succ k ih =>
    obtain ⟨h1, h2⟩ := ih
    have hR : (chomp^[k] s).length ≤ s.length := by
      have := List.length_drop (s.length - (chomp^[k] s).length) s
      rw [h2] at this
      omega
    show ((stateAfter s (k + 1)).nextToken).2 = _ ∧ _
    rw [h1, Function.iterate_succ_apply']
    by_cases hend : s.length ≤ s.length - (chomp^[k] s).length
    · have hremnil : chomp^[k] s = [] := by
        have : (chomp^[k] s).length = 0 := by omega
        exact List.length_eq_zero.mp this
      rw [nextToken_end s _ hend]
      rw [hremnil] at h2 ⊢
      rw [chomp_nil]
      exact ⟨rfl, h2⟩
    · push_neg at hend
      rw [nextToken_mid s _ hend]
      have hremne : chomp^[k] s ≠ [] := by
        intro h0
        rw [h0] at hend
        simp only [List.length_nil, Nat.sub_zero] at hend
        exact absurd hend (lt_irrefl _)
      have hlen1 : 1 ≤ (chomp^[k] s).length := by
        cases hcs : chomp^[k] s with
        | nil => exact absurd hcs hremne
        | cons a t => simp
      have hnle : max (tokLen (chomp^[k] s)).2 1 ≤ (chomp^[k] s).length := by
        have := tokLen_le (chomp^[k] s)
        omega
      have hcl : (chomp (chomp^[k] s)).length =
          (chomp^[k] s).length - max (tokLen (chomp^[k] s)).2 1 := by
        simp [chomp, List.length_drop]
      constructor
      · dsimp only
        rw [h2]
        congr 1
        omega
      · have hposeq : s.length - (chomp (chomp^[k] s)).length =
            (s.length - (chomp^[k] s).length) + max (tokLen (chomp^[k] s)).2 1 := by
          omega
        rw [hposeq]
        rw [← List.drop_drop, h2]
        rfl

theorem chompIter_nil : ∀ k, chomp^[k] ([] : List Char) = [] := by
  intro k
  exact Function.iterate_fixed chomp_nil k

theorem tokensFrom_count_pos (cs : List Char) (h : cs ≠ []) :
    1 ≤ (tokensFrom 0 cs).length := by
  rw [tokensFrom_cons 0 cs h]
  simp

theorem chompIter_eq_nil : ∀ k cs, (chomp^[k] cs = []) ↔ (tokensFrom 0 cs).length ≤ k := by
  intro k
  induction k with
  | zero =>
    intro cs
    simp only [Function.iterate_zero, id_eq, Nat.le_zero]
    constructor
    · intro h
      subst h
      rfl
    · intro h
      cases cs with
      | nil => rfl
      | cons c r =>
        have := tokensFrom_count_pos (c :: r) (by simp)
        omega
  | succ k ih =>
    intro cs
    rw [Function.iterate_succ_apply]
    cases cs with
    | nil =>
      rw [chomp_nil, chompIter_nil]
      simp [tokensFrom_nil]
    | cons c r =>
      rw [ih (chomp (c :: r))]
      have hcount : (tokensFrom 0 (c :: r)).length =
          1 + (tokensFrom 0 (chomp (c :: r))).length := by
        rw [tokensFrom_cons 0 _ (by simp)]
        simp only [List.length_cons]
        rw [tokensFrom_length_indep (0 + max (tokLen (c :: r)).2 1) 0]
        omega
      omega

theorem atEnd_spec (s : List Char) : ∀ k,
    (stateAfter s k).atEnd = true ↔ (tokensFrom 0 s).length + 1 ≤ k := by
  intro k
  cases k with
  | zero =>
    simp [stateAfter, Tokenizer.init, Tokenizer.atEnd]
  | succ k =>
    obtain ⟨h1, h2⟩ := stateAfter_spec s k
    have hR : (chomp^[k] s).length ≤ s.length := by
      have := List.length_drop (s.length - (chomp^[k] s).length) s
      rw [h2] at this
      omega
    rw [h1, atEnd_mk]
    simp only [Bool.true_and, decide_eq_true_eq]
    have hiff : (s.length ≤ s.length - (chomp^[k] s).length) ↔ (chomp^[k] s).length = 0 := by
      omega
    rw [hiff, List.length_eq_zero, chompIter_eq_nil]
    omega

theorem produceTokens_eq (s : List Char) : ∀ N cs p, cs.length ≤ N → s.drop p = cs →
    produceTokens ((tokensFrom 0 cs).length + 1) ⟨s, p, true⟩ =
      tokensFrom p cs ++ [⟨TokenType.TEXT_END, s.length, 0, []⟩] := by
  intro N
  induction N with
  | zero =>
    intro cs p hN hdrop
    have : cs = [] := List.length_eq_zero.mp (Nat.le_zero.mp hN)
    subst this
    have hple : s.length ≤ p := by
      have := List.length_drop p s
      rw [hdrop] at this
      simp at this
      omega
    simp only [tokensFrom_nil, List.length_nil, Nat.zero_add]
    rw [produceTokens_succ, nextToken_end s p hple]
    rfl
  | succ N ih =>
    intro cs p hN hdrop
    cases cs with
    | nil =>
      have hple : s.length ≤ p := by
        have := List.length_drop p s
        rw [hdrop] at this
        simp at this
        omega
      simp only [tokensFrom_nil, List.length_nil, Nat.zero_add]
      rw [produceTokens_succ, nextToken_end s p hple]
      rfl
    | cons c r =>
      have hplt : p < s.length := by
        have := List.length_drop p s
        rw [hdrop] at this
        simp at this
        omega
      have hcount : (tokensFrom 0 (c :: r)).length =
          (tokensFrom 0 (chomp (c :: r))).length + 1 := by
        rw [tokensFrom_cons 0 _ (by simp)]
        simp only [List.length_cons]
        rw [tokensFrom_length_indep (0 + max (tokLen (c :: r)).2 1) 0]
      have hdd : s.drop (p + max (tokLen (c :: r)).2 1) = chomp (c :: r) := by
        have h3 : (s.drop p).drop (max (tokLen (c :: r)).2 1) =
            s.drop (p + max (tokLen (c :: r)).2 1) := by
          rw [List.drop_drop, Nat.add_comm]
        rw [← h3, hdrop]
        rfl
      have hrec := ih (chomp (c :: r)) (p + max (tokLen (c :: r)).2 1)
        (by
          have := chomp_length_lt (c :: r) (by simp)
          simp only [List.length_cons] at hN this ⊢
          omega)
        hdd
      rw [hcount, produceTokens_succ, nextToken_mid s p hplt]
      dsimp only
      rw [hdrop, hrec, tokensFrom_cons p _ (by simp)]
      rfl

theorem tokenStream_eq_tokenize (s : List Char) : tokenStream s = tokenize s := by
  unfold tokenStream tokenize
  have h0 : (tokensFrom 0 s).length + 2 = ((tokensFrom 0 s).length + 1) + 1 := by omega
  rw [h0, produceTokens_succ]
  rw [show Tokenizer.init s = ⟨s, 0, false⟩ from rfl, nextToken_fresh]
  dsimp only
  congr 1
  exact produceTokens_eq s s.length s 0 le_rfl (by simp)

/-! ## Highlighting parser: bounds of the region scans -/

theorem restNlLen_le (cs : List Char) : restNlLen cs ≤ cs.length := by
  unfold restNlLen
  split
  · simp
  · next h =>
    exact nlLen_le cs (by intro h0; subst h0; exact h rfl)

theorem lineCommentLen_le (cs : List Char) (h2 : 2 ≤ cs.length) :
    lineCommentLen cs ≤ cs.length := by
  unfold lineCommentLen
  have hb := ltw_le (fun ch => !(isNL ch)) (cs.drop 2)
  rw [List.length_drop] at hb
  have hr := restNlLen_le
    (cs.drop (2 + ((cs.drop 2).takeWhile (fun ch => !(isNL ch))).length))
  rw [List.length_drop] at hr
  omega

theorem blockLen_le : ∀ f d cs, blockLen f d cs ≤ cs.length := by
  intro f
  induction f with
  | zero => intro d cs; simp [blockLen]
  | succ f ih =>
    intro d cs
    cases cs with
    | nil => simp [blockLen]
    | cons c rest =>
      have hne : ∀ ch : Char, rest.head? = some ch → 1 ≤ rest.length := by
        intro ch hch
        cases rest with
        | nil => simp at hch
        | cons a t => simp
      unfold blockLen
      split
      · next h =>
        have h1 := hne '/' h.2
        split
        · simp only [List.length_cons]
          omega
        · have := ih (d - 1) (rest.drop 1)
          rw [List.length_drop] at this
          simp only [List.length_cons]
          omega
      · split
        · next h =>
          have h1 := hne '*' h.2
          have := ih (d + 1) (rest.drop 1)
          rw [List.length_drop] at this
          simp only [List.length_cons]
          omega
        · have := ih d rest
          simp only [List.length_cons]
          omega

theorem findFence_le (n : Nat) : ∀ cs i, findFence n cs = some i → i + n ≤ cs.length := by
  intro cs
  induction cs with
  | nil => intro i h; simp [findFence] at h
  | cons c r ih =>
    intro i h
    unfold findFence at h
    split at h
    · next htake =>
      have hlen : ((c :: r).take n).length = (List.replicate n btick).length := by
        rw [htake]
      rw [List.length_take, List.length_replicate] at hlen
      have : n ≤ (c :: r).length := by
        rcases Nat.le_total n (c :: r).length with hle | hge
        · exact hle
        · rw [Nat.min_eq_right hge] at hlen
          omega
      simp only [Option.some.injEq] at h
      omega
    · simp only [Option.map_eq_some'] at h
      obtain ⟨j, hj, hij⟩ := h
      have := ih j hj
      subst hij
      simp only [List.length_cons]
      omega

theorem btickRun_le (cs : List Char) : btickRun cs ≤ cs.length :=
  ltw_le _ cs

theorem rawSpanLen_le (cs : List Char) : rawSpanLen cs ≤ cs.length := by
  unfold rawSpanLen
  split
  · next h2 =>
    have := btickRun_le cs
    omega
  · split
    · next i hfence =>
      have := findFence_le (btickRun cs) (cs.drop (btickRun cs)) i hfence
      rw [List.length_drop] at this
      have := btickRun_le cs
      omega
    · exact le_rfl

theorem strScan_ok : ∀ f cs, (strScan f cs).1 ≤ cs.length ∧
    ∀ q ∈ (strScan f cs).2, q.1 + q.2 ≤ (strScan f cs).1 := by
  intro f
  induction f with
  | zero => intro cs; simp [strScan]
  | succ f ih =>
    intro cs
    cases cs with
    | nil => simp [strScan]
    | cons c r =>
      unfold strScan
      split
      · simp
      · split
        · next hbs =>
          cases r with
          | nil => simp
          | cons d rr =>
            dsimp only
            have hlen2 : 2 ≤ (c :: d :: rr).length := by simp
            have hesc := escLen_le (c :: d :: rr)
            have hmax : max (escLen (c :: d :: rr)) 2 ≤ (c :: d :: rr).length := by omega
            obtain ⟨ih1, ih2⟩ := ih ((c :: d :: rr).drop (max (escLen (c :: d :: rr)) 2))
            rw [List.length_drop] at ih1
            constructor
            · dsimp only
              omega
            · intro q hq
              simp only [List.mem_cons] at hq
              rcases hq with hq | hq
              · subst hq
                omega
              · simp only [List.mem_map] at hq
                obtain ⟨q0, hq0, hq0eq⟩ := hq
                have := ih2 q0 hq0
                subst hq0eq
                dsimp only
                omega
        · obtain ⟨ih1, ih2⟩ := ih r
          constructor
          · simp only [List.length_cons]
            omega
          · intro q hq
            dsimp only at hq
            simp only [List.mem_map] at hq
            obtain ⟨q0, hq0, hq0eq⟩ := hq
            have := ih2 q0 hq0
            subst hq0eq
            dsimp only
            omega

theorem chainScan_ok : ∀ f cs, (chainScan f cs).1 ≤ cs.length ∧
    ∀ q ∈ (chainScan f cs).2, q.1 + q.2 ≤ (chainScan f cs).1 := by
  intro f
  induction f with
  | zero => intro cs; simp [chainScan]
  | succ f ih =>
    intro cs
    unfold chainScan
    split
    · simp
    · next hn0 =>
      have htw := ltw_le idContChar cs
      split
      · next d tl heq =>
        split
        · have hlen : (cs.drop ((cs.takeWhile idContChar).length)).length =
              cs.length - (cs.takeWhile idContChar).length := List.length_drop _ _
          rw [heq] at hlen
          simp only [List.length_cons] at hlen
          obtain ⟨ih1, ih2⟩ := ih (cs.drop ((cs.takeWhile idContChar).length + 1))
          rw [List.length_drop] at ih1
          constructor
          · simp only
            omega
          · intro q hq
            simp only [List.mem_cons] at hq
            rcases hq with hq | hq
            · subst hq
              simp only
              omega
            · simp only [List.mem_map] at hq
              obtain ⟨q0, hq0, hq0eq⟩ := hq
              have := ih2 q0 hq0
              subst hq0eq
              simp only
              omega
        · constructor
          · simpa using htw
          · intro q hq
            simp only [List.mem_singleton] at hq
            subst hq
            simp
      · constructor
        · simpa using htw
        · intro q hq
          simp only [List.mem_singleton] at hq
          subst hq
          simp

theorem unitLen_le (cs : List Char) : unitLen cs ≤ cs.length := by
  unfold unitLen
  split
  · simp
  · exact ltw_le _ cs

theorem listAhead_le (cs : List Char) (k : Nat) (b : Bool) (h : listAhead cs = some (k, b)) :
    k ≤ cs.length := by
  unfold listAhead at h
  split at h
  · next c hc =>
    split at h
    · split at h
      · simp only [Option.some.injEq, Prod.mk.injEq] at h
        have hi := ltw_le isHSpace cs
        have hlt : (cs.takeWhile isHSpace).length < cs.length := by
          by_contra hge
          push_neg at hge
          have : afterIndent cs = [] := by
            unfold afterIndent
            exact List.drop_eq_nil_of_le hge
          rw [this] at hc
          simp at hc
        have hw := ltw_le isHSpace ((afterIndent cs).drop 1)
        rw [List.length_drop] at hw
        have hai : (afterIndent cs).length = cs.length - (cs.takeWhile isHSpace).length := by
          unfold afterIndent
          exact List.length_drop _ _
        omega
      · simp at h
    · simp at h
  · simp at h

theorem termLen_le (cs : List Char) (t : Nat) (h : termLen cs = some t) : t ≤ cs.length := by
  unfold termLen at h
  split at h
  · simp only [Option.some.injEq] at h
    subst h
    exact ltw_le _ cs
  · simp at h

theorem paraBreakLen_le (cs : List Char) (t : Nat) (h : paraBreakLen cs = some t) :
    nlLen cs ≤ t ∧ nlLen cs + wsAfterNl cs ≤ t ∧ t ≤ cs.length := by
  unfold paraBreakLen at h
  split at h
  · next c2 hc2 =>
    split at h
    · simp only [Option.some.injEq] at h
      have hlt : nlLen cs + wsAfterNl cs < cs.length := by
        by_contra hge
        push_neg at hge
        have : sndNl cs = [] := by
          unfold sndNl
          exact List.drop_eq_nil_of_le hge
        rw [this] at hc2
        simp at hc2
      have hsne : sndNl cs ≠ [] := by
        intro h0
        rw [h0] at hc2
        simp at hc2
      have hn2 := nlLen_le (sndNl cs) hsne
      have hslen : (sndNl cs).length = cs.length - (nlLen cs + wsAfterNl cs) := by
        unfold sndNl
        exact List.length_drop _ _
      have hn2pos : 1 ≤ nlLen (sndNl cs) := by
        unfold nlLen
        split <;> omega
      omega
    · simp at h
  · simp at h

theorem hashAction_ok (p : Nat) (c : Char) (r : List Char) :
    1 ≤ (hashAction p (c :: r)).2.1 ∧
    (hashAction p (c :: r)).2.1 ≤ (c :: r).length ∧
    (∀ mk ∈ (hashAction p (c :: r)).1,
      mk.startPos + mk.length ≤ p + (hashAction p (c :: r)).2.1) := by
  cases r with
  | nil => simp [hashAction]
  | cons c2 tl =>
    unfold hashAction
    dsimp only
    have htw := ltw_le idContChar (c2 :: tl)
    simp only [List.length_cons] at htw
    split
    · dsimp only
      refine ⟨by omega, ?_, by simp⟩
      simp only [List.length_cons]
      omega
    · split
      · split
        · dsimp only
          refine ⟨by omega, ?_, ?_⟩
          · simp only [List.length_cons]
            omega
          · intro mk hmk
            simp only [List.mem_singleton] at hmk
            subst hmk
            simp
        · split
          · next hpar =>
            dsimp only
            have hlt : ((c2 :: tl).takeWhile idContChar).length < (c2 :: tl).length := by
              by_contra hge
              push_neg at hge
              have : (c2 :: tl).drop (((c2 :: tl).takeWhile idContChar).length) = [] :=
                List.drop_eq_nil_of_le hge
              rw [this] at hpar
              simp at hpar
            simp only [List.length_cons] at hlt
            refine ⟨by omega, ?_, ?_⟩
            · simp only [List.length_cons]
              omega
            · intro mk hmk
              simp only [List.mem_singleton] at hmk
              subst hmk
              dsimp only
              omega
          · dsimp only
            refine ⟨by omega, ?_, ?_⟩
            · simp only [List.length_cons]
              omega
            · intro mk hmk
              simp only [List.mem_singleton] at hmk
              subst hmk
              simp
      · refine ⟨?_, ?_, ?_⟩ <;> simp

/-! ## Highlighting parser: the span-bound invariant -/

theorem frameOK_mono {p q : Nat} (hpq : p ≤ q) {m : PMode} (h : frameOK p m) :
    frameOK q m := by
  cases m with
  | markup emph heading inBr =>
    obtain ⟨h1, h2⟩ := h
    exact ⟨fun fr hf => le_trans (h1 fr hf) hpq, fun x hx => le_trans (h2 x hx) hpq⟩
  | math => trivial
  | codeParen d => trivial
  | codeBrace d => trivial
  | codeLine => trivial

theorem stackOK_mono {p q : Nat} (hpq : p ≤ q) {st : List PMode} (h : stackOK p st) :
    stackOK q st :=
  fun m hm => frameOK_mono hpq (h m hm)

theorem closeMode_bound (e : Nat) (m : PMode) (hm : frameOK e m) :
    ∀ mk ∈ closeMode e m, mk.startPos + mk.length ≤ e := by
  cases m with
  | markup emph heading inBr =>
    obtain ⟨h1, h2⟩ := hm
    intro mk hmk
    unfold closeMode at hmk
    rw [List.mem_append] at hmk
    rcases hmk with hmk | hmk
    · cases hh : heading with
      | none =>
        rw [hh] at hmk
        simp at hmk
      | some x =>
        rw [hh] at hmk
        simp only [List.mem_singleton] at hmk
        subst hmk
        have := h2 x hh
        simp only
        omega
    · simp only [List.mem_map] at hmk
      obtain ⟨fr, hfr, hfreq⟩ := hmk
      subst hfreq
      have := h1 fr hfr
      simp only
      omega
  | math => intro mk hmk; simp [closeMode] at hmk
  | codeParen d => intro mk hmk; simp [closeMode] at hmk
  | codeBrace d => intro mk hmk; simp [closeMode] at hmk
  | codeLine => intro mk hmk; simp [closeMode] at hmk

theorem closeAll_bound (e : Nat) (st : List PMode) (hst : stackOK e st) :
    ∀ mk ∈ closeAll e st, mk.startPos + mk.length ≤ e := by
  intro mk hmk
  unfold closeAll at hmk
  simp only [List.mem_flatten, List.mem_map] at hmk
  obtain ⟨l, ⟨m, hm, hml⟩, hmkl⟩ := hmk
  subst hml
  exact closeMode_bound e m (hst m hm) mk hmkl

theorem lineOpen_ok (q p0 : Nat) (rest : List Char) (hq : q ≤ p0) :
    (lineOpen q p0 rest).2.1 ≤ rest.length ∧
    (∀ mk ∈ (lineOpen q p0 rest).1, mk.startPos + mk.length ≤ p0 + rest.length) ∧
    (∀ h, (lineOpen q p0 rest).2.2 = some h → h ≤ p0) := by
  unfold lineOpen
  split
  · refine ⟨by simp, by simp, ?_⟩
    intro h hh
    simp only [Option.some.injEq] at hh
    omega
  · split
    · next k isTerm hlist =>
      have hk := listAhead_le rest k isTerm hlist
      refine ⟨by dsimp only; omega, ?_, by simp⟩
      intro mk hmk
      dsimp only at hmk
      simp only [List.mem_cons] at hmk
      rcases hmk with hmk | hmk
      · subst hmk
        simp only
        omega
      · split at hmk
        · split at hmk
          · next t hterm =>
            have ht := termLen_le (rest.drop k) t hterm
            rw [List.length_drop] at ht
            simp only [List.mem_singleton] at hmk
            subst hmk
            simp only
            omega
          · simp at hmk
        · simp at hmk
    · exact ⟨by simp, by simp, by simp⟩

theorem mathIdMarkers_bound (p consumed : Nat) (callAfter : Bool) (segs : List (Nat × Nat))
    (hsegs : ∀ q ∈ segs, q.1 + q.2 ≤ consumed) :
    ∀ mk ∈ mathIdMarkers p consumed callAfter segs,
      mk.startPos + mk.length ≤ p + consumed := by
  intro mk hmk
  unfold mathIdMarkers at hmk
  split at hmk
  · next q =>
    have hq := hsegs q (by simp)
    split at hmk
    · simp only [List.mem_singleton] at hmk
      subst hmk
      simp only
      omega
    · split at hmk
      · simp only [List.mem_singleton] at hmk
        subst hmk
        simp only
        omega
      · simp at hmk
  · simp only [List.mem_map] at hmk
    obtain ⟨q, hq, hqeq⟩ := hmk
    have := hsegs q hq
    subst hqeq
    unfold segMarker
    split
    · simp only
      omega
    · simp only
      omega

theorem codeIdMarkers_bound (p consumed : Nat) (callAfter : Bool) (segs : List (Nat × Nat))
    (hsegs : ∀ q ∈ segs, q.1 + q.2 ≤ consumed) :
    ∀ mk ∈ codeIdMarkers p consumed callAfter segs,
      mk.startPos + mk.length ≤ p + consumed := by
  intro mk hmk
  unfold codeIdMarkers at hmk
  simp only [List.mem_map] at hmk
  obtain ⟨q, hq, hqeq⟩ := hmk
  have := hsegs q hq
  subst hqeq
  unfold segMarker
  split
  · simp only
    omega
  · simp only
    omega

theorem splitEmph_sub (strong : Bool) : ∀ emph pop kept,
    splitEmph strong emph = some (pop, kept) →
    (∀ fr ∈ pop, fr ∈ emph) ∧ (∀ fr ∈ kept, fr ∈ emph) := by
  intro emph
  induction emph with
  | nil =>
    intro pop kept h
    simp [splitEmph] at h
  | cons fr t ih =>
    intro pop kept h
    unfold splitEmph at h
    split at h
    · simp only [Option.some.injEq, Prod.mk.injEq] at h
      obtain ⟨h1, h2⟩ := h
      subst h1
      subst h2
      constructor
      · intro fr2 hfr2
        simp only [List.mem_singleton] at hfr2
        subst hfr2
        simp
      · intro fr2 hfr2
        simp [hfr2]
    · split at h
      · simp at h
      · next pop0 kept0 heq =>
        simp only [Option.some.injEq, Prod.mk.injEq] at h
        obtain ⟨h1, h2⟩ := h
        subst h1
        subst h2
        obtain ⟨ha, hb⟩ := ih pop0 kept0 heq
        constructor
        · intro fr2 hfr2
          simp only [List.mem_cons] at hfr2
          rcases hfr2 with hfr2 | hfr2
          · simp [hfr2]
          · simp [ha fr2 hfr2]
        · intro fr2 hfr2
          simp [hb fr2 hfr2]


theorem markupNl_ok (p : Nat) (cs : List Char) (emph : List (Bool × Nat))
    (heading : Option Nat) (inBr : Bool) (rest : List PMode) (hne : cs ≠ [])
    (hemph : ∀ fr ∈ emph, fr.2 ≤ p) (hhead : ∀ h, heading = some h → h ≤ p)
    (hrest : stackOK p rest) :
    stepRes p cs.length (markupNl p cs emph heading inBr rest) := by
  have hnl := nlLen_le cs hne
  have hnl1 : 1 ≤ nlLen cs := by unfold nlLen; split <;> omega
  unfold markupNl
  rcases hpb : paraBreakLen cs with _ | total
  · rcases hLO : lineOpen p (p + nlLen cs) (cs.drop (nlLen cs)) with ⟨lm, k2, hNew⟩
    obtain ⟨hk2, hlm, hhNew⟩ := lineOpen_ok p (p + nlLen cs) (cs.drop (nlLen cs)) (by omega)
    rw [hLO] at hk2 hlm hhNew
    dsimp only at hk2 hlm hhNew
    rw [List.length_drop] at hk2 hlm
    unfold stepRes
    dsimp only
    refine ⟨by omega, ?_, ?_⟩
    · intro mk hmk
      rw [List.mem_append] at hmk
      rcases hmk with hmk | hmk
      · cases hh : heading with
        | none =>
          rw [hh] at hmk
          simp at hmk
        | some x =>
          rw [hh] at hmk
          dsimp only at hmk
          split at hmk
          · rw [List.mem_singleton] at hmk
            subst hmk
            have := hhead x hh
            dsimp only
            omega
          · simp at hmk
      · have := hlm mk hmk
        omega
    · intro m hm
      simp only [List.mem_cons] at hm
      rcases hm with hm | hm
      · subst hm
        constructor
        · intro fr hfr
          have := hemph fr hfr
          omega
        · intro h hh
          cases hx : heading with
          | none =>
            rw [hx] at hh
            dsimp only at hh
            have := hhNew h hh
            omega
          | some x =>
            rw [hx] at hh
            dsimp only at hh
            split at hh
            · have := hhNew h hh
              omega
            · simp only [Option.some.injEq] at hh
              subst hh
              have := hhead x hx
              omega
      · exact frameOK_mono (by omega) (hrest m hm)
  · obtain ⟨hnlt, hnlws, htot⟩ := paraBreakLen_le cs total hpb
    unfold stepRes
    dsimp only
    rcases hLO : lineOpen (p + nlLen cs + wsAfterNl cs) (p + total) (cs.drop total)
      with ⟨lm, k2, hNew⟩
    obtain ⟨hk2, hlm, hhNew⟩ := lineOpen_ok (p + nlLen cs + wsAfterNl cs) (p + total)
      (cs.drop total) (by omega)
    rw [hLO] at hk2 hlm hhNew
    dsimp only at hk2 hlm hhNew
    rw [List.length_drop] at hk2 hlm
    dsimp only
    refine ⟨by omega, ?_, ?_⟩
    · intro mk hmk
      rw [List.mem_append, List.mem_append] at hmk
      rcases hmk with (hmk | hmk) | hmk
      · cases hh : heading with
        | none =>
          rw [hh] at hmk
          simp at hmk
        | some x =>
          rw [hh] at hmk
          dsimp only at hmk
          rw [List.mem_singleton] at hmk
          subst hmk
          have := hhead x hh
          dsimp only
          split <;> omega
      · simp only [List.mem_map] at hmk
        obtain ⟨fr, hfr, hfreq⟩ := hmk
        subst hfreq
        have := hemph fr hfr
        dsimp only
        omega
      · have := hlm mk hmk
        omega
    · intro m hm
      simp only [List.mem_cons] at hm
      rcases hm with hm | hm
      · subst hm
        refine ⟨by simp, ?_⟩
        intro h hh
        have := hhNew h hh
        omega
      · exact frameOK_mono (by omega) (hrest m hm)



theorem hashAction_frame (p q : Nat) (cs : List Char) (md : PMode)
    (h : (hashAction p cs).2.2 = some md) : frameOK q md := by
  unfold hashAction at h
  rcases cs with _ | ⟨c, r⟩
  · simp at h
  rcases r with _ | ⟨c2, tl⟩
  · simp at h
  dsimp only at h
  split at h
  · dsimp only at h
    simp only [Option.some.injEq] at h
    subst h
    trivial
  · split at h
    · split at h
      · dsimp only at h
        simp only [Option.some.injEq] at h
        subst h
        trivial
      · split at h
        · dsimp only at h
          simp only [Option.some.injEq] at h
          subst h
          trivial
        · simp at h
    · simp at h

theorem markupStep_ok (p : Nat) (c : Char) (r : List Char) (emph : List (Bool × Nat))
    (heading : Option Nat) (inBr : Bool) (rest : List PMode)
    (hemph : ∀ fr ∈ emph, fr.2 ≤ p) (hhead : ∀ h, heading = some h → h ≤ p)
    (hrest : stackOK p rest) :
    stepRes p (c :: r).length (markupStep p c r emph heading inBr rest) := by
  have hlen1 : 1 ≤ (c :: r).length := by simp
  unfold markupStep
  by_cases h1 : isNL c
  · rw [if_pos h1]
    exact markupNl_ok p (c :: r) emph heading inBr rest (by simp) hemph hhead hrest
  rw [if_neg h1]
  by_cases h2 : 0 < escLen (c :: r)
  · rw [if_pos h2]
    have := escLen_le (c :: r)
    refine ⟨by dsimp only; omega, ?_, ?_⟩
    · intro mk hmk
      simp only [List.mem_singleton] at hmk
      subst hmk
      dsimp only
      omega
    · intro m hm
      simp only [List.mem_cons] at hm
      rcases hm with hm | hm
      · subst hm
        exact ⟨fun fr hfr => by have := hemph fr hfr; omega,
          fun h hh => by have := hhead h hh; omega⟩
      · exact frameOK_mono (by omega) (hrest m hm)
  rw [if_neg h2]
  by_cases h3 : c = btick
  · rw [if_pos h3]
    have := rawSpanLen_le (c :: r)
    refine ⟨by dsimp only; omega, ?_, ?_⟩
    · intro mk hmk
      simp only [List.mem_singleton] at hmk
      subst hmk
      dsimp only
      omega
    · intro m hm
      simp only [List.mem_cons] at hm
      rcases hm with hm | hm
      · subst hm
        exact ⟨fun fr hfr => by have := hemph fr hfr; omega,
          fun h hh => by have := hhead h hh; omega⟩
      · exact frameOK_mono (by omega) (hrest m hm)
  rw [if_neg h3]
  by_cases h4 : c = '/' ∧ r.head? = some '/'
  · rw [if_pos h4]
    have h2r : 2 ≤ (c :: r).length := by
      cases r with
      | nil => simp at h4
      | cons a t => simp
    have := lineCommentLen_le (c :: r) h2r
    refine ⟨by dsimp only; omega, ?_, ?_⟩
    · intro mk hmk
      simp only [List.mem_singleton] at hmk
      subst hmk
      dsimp only
      omega
    · intro m hm
      simp only [List.mem_cons] at hm
      rcases hm with hm | hm
      · subst hm
        exact ⟨fun fr hfr => by have := hemph fr hfr; omega,
          fun h hh => by have := hhead h hh; omega⟩
      · exact frameOK_mono (by omega) (hrest m hm)
  rw [if_neg h4]
  by_cases h5 : c = '/' ∧ r.head? = some '*'
  · rw [if_pos h5]
    have h1r : 1 ≤ r.length := by
      cases r with
      | nil => simp at h5
      | cons a t => simp
    have hbl := blockLen_le (r.drop 1).length 1 (r.drop 1)
    have hdl : (r.drop 1).length = r.length - 1 := List.length_drop 1 r
    refine ⟨by dsimp only; simp only [List.length_cons]; omega, ?_, ?_⟩
    · intro mk hmk
      simp only [List.mem_singleton] at hmk
      subst hmk
      dsimp only
      simp only [List.length_cons]
      omega
    · intro m hm
      simp only [List.mem_cons] at hm
      rcases hm with hm | hm
      · subst hm
        exact ⟨fun fr hfr => by have := hemph fr hfr; omega,
          fun h hh => by have := hhead h hh; omega⟩
      · exact frameOK_mono (by omega) (hrest m hm)
  rw [if_neg h5]
  by_cases h6 : c = '$'
  · rw [if_pos h6]
    refine ⟨by dsimp only; omega, ?_, ?_⟩
    · intro mk hmk
      simp only [List.mem_singleton] at hmk
      subst hmk
      dsimp only
      omega
    · intro m hm
      simp only [List.mem_cons] at hm
      rcases hm with hm | hm
      · subst hm
        trivial
      · rcases hm with hm | hm
        · subst hm
          exact ⟨fun fr hfr => by have := hemph fr hfr; omega,
            fun h hh => by have := hhead h hh; omega⟩
        · exact frameOK_mono (by omega) (hrest m hm)
  rw [if_neg h6]
  by_cases h7 : c = '_' ∨ c = '*'
  · rw [if_pos h7]
    rcases hsp : splitEmph (c = '*') emph with _ | ⟨pop, kept⟩
    · refine ⟨by dsimp only; omega, by simp, ?_⟩
      intro m hm
      simp only [List.mem_cons] at hm
      rcases hm with hm | hm
      · subst hm
        constructor
        · intro fr hfr
          simp only [List.mem_cons] at hfr
          rcases hfr with hfr | hfr
          · subst hfr
            omega
          · have := hemph fr hfr
            omega
        · intro h hh
          have := hhead h hh
          omega
      · exact frameOK_mono (by omega) (hrest m hm)
    · obtain ⟨hpop, hkept⟩ := splitEmph_sub (c = '*') emph pop kept hsp
      refine ⟨by dsimp only; omega, ?_, ?_⟩
      · intro mk hmk
        simp only [List.mem_map] at hmk
        obtain ⟨fr, hfr, hfreq⟩ := hmk
        subst hfreq
        have := hemph fr (hpop fr hfr)
        dsimp only
        omega
      · intro m hm
        simp only [List.mem_cons] at hm
        rcases hm with hm | hm
        · subst hm
          exact ⟨fun fr hfr => by have := hemph fr (hkept fr hfr); omega,
            fun h hh => by have := hhead h hh; omega⟩
        · exact frameOK_mono (by omega) (hrest m hm)
  rw [if_neg h7]
  by_cases h8 : c = '@'
  · rw [if_pos h8]
    by_cases h8a : 0 < (r.takeWhile idContChar).length
    · rw [if_pos h8a]
      have := ltw_le idContChar r
      refine ⟨by dsimp only; simp only [List.length_cons]; omega, ?_, ?_⟩
      · intro mk hmk
        simp only [List.mem_singleton] at hmk
        subst hmk
        dsimp only
        simp only [List.length_cons]
        omega
      · intro m hm
        simp only [List.mem_cons] at hm
        rcases hm with hm | hm
        · subst hm
          exact ⟨fun fr hfr => by have := hemph fr hfr; omega,
            fun h hh => by have := hhead h hh; omega⟩
        · exact frameOK_mono (by omega) (hrest m hm)
    · rw [if_neg h8a]
      refine ⟨by dsimp only; omega, by simp, ?_⟩
      intro m hm
      simp only [List.mem_cons] at hm
      rcases hm with hm | hm
      · subst hm
        exact ⟨fun fr hfr => by have := hemph fr hfr; omega,
          fun h hh => by have := hhead h hh; omega⟩
      · exact frameOK_mono (by omega) (hrest m hm)
  rw [if_neg h8]
  by_cases h9 : c = '<'
  · rw [if_pos h9]
    by_cases h9a : 0 < (r.takeWhile idContChar).length ∧
        (r.drop ((r.takeWhile idContChar).length)).head? = some '>'
    · rw [if_pos h9a]
      have hlt : (r.takeWhile idContChar).length < r.length := by
        by_contra hge
        push_neg at hge
        have hnil : r.drop ((r.takeWhile idContChar).length) = [] :=
          List.drop_eq_nil_of_le hge
        rw [hnil] at h9a
        simp at h9a
      refine ⟨by dsimp only; simp only [List.length_cons]; omega, ?_, ?_⟩
      · intro mk hmk
        simp only [List.mem_singleton] at hmk
        subst hmk
        dsimp only
        simp only [List.length_cons]
        omega
      · intro m hm
        simp only [List.mem_cons] at hm
        rcases hm with hm | hm
        · subst hm
          exact ⟨fun fr hfr => by have := hemph fr hfr; omega,
            fun h hh => by have := hhead h hh; omega⟩
        · exact frameOK_mono (by omega) (hrest m hm)
    · rw [if_neg h9a]
      refine ⟨by dsimp only; omega, by simp, ?_⟩
      intro m hm
      simp only [List.mem_cons] at hm
      rcases hm with hm | hm
      · subst hm
        exact ⟨fun fr hfr => by have := hemph fr hfr; omega,
          fun h hh => by have := hhead h hh; omega⟩
      · exact frameOK_mono (by omega) (hrest m hm)
  rw [if_neg h9]
  by_cases h10 : c = '#'
  · rw [if_pos h10]
    rcases hHA : hashAction p (c :: r) with ⟨ms, k, push⟩
    obtain ⟨hk1, hkle, hms⟩ := hashAction_ok p c r
    rw [hHA] at hk1 hkle hms
    dsimp only at hk1 hkle hms
    refine ⟨hkle, ?_, ?_⟩
    · intro mk hmk
      have := hms mk hmk
      omega
    · have hmarkup : frameOK (p + k) (PMode.markup emph heading inBr) :=
        ⟨fun fr hfr => by have := hemph fr hfr; omega,
          fun h hh => by have := hhead h hh; omega⟩
      cases hpu : push with
      | none =>
        intro m hm
        dsimp only at hm
        simp only [List.mem_cons] at hm
        rcases hm with hm | hm
        · subst hm
          exact hmarkup
        · exact frameOK_mono (by omega) (hrest m hm)
      | some md =>
        intro m hm
        dsimp only at hm
        simp only [List.mem_cons] at hm
        rcases hm with hm | hm
        · rw [hm]
          refine hashAction_frame p (p + k) (c :: r) md ?_
          rw [hHA, hpu]
        · rcases hm with hm | hm
          · subst hm
            exact hmarkup
          · exact frameOK_mono (by omega) (hrest m hm)
  rw [if_neg h10]
  by_cases h11 : inBr ∧ c = ']'
  · rw [if_pos h11]
    refine ⟨by dsimp only; omega, by simp, ?_⟩
    exact fun m hm => frameOK_mono (by omega) (hrest m hm)
  rw [if_neg h11]
  refine ⟨by dsimp only; omega, by simp, ?_⟩
  intro m hm
  simp only [List.mem_cons] at hm
  rcases hm with hm | hm
  · subst hm
    exact ⟨fun fr hfr => by have := hemph fr hfr; omega,
      fun h hh => by have := hhead h hh; omega⟩
  · exact frameOK_mono (by omega) (hrest m hm)



theorem mathStep_ok (p : Nat) (c : Char) (r : List Char) (rest : List PMode)
    (hrest : stackOK p rest) :
    stepRes p (c :: r).length (mathStep p c r rest) := by
  have hlen1 : 1 ≤ (c :: r).length := by simp
  unfold mathStep
  by_cases h1 : 0 < escLen (c :: r)
  · rw [if_pos h1]
    have := escLen_le (c :: r)
    refine ⟨by dsimp only; omega, ?_, ?_⟩
    · intro mk hmk
      simp only [List.mem_singleton] at hmk
      subst hmk
      dsimp only
      omega
    · intro m hm
      simp only [List.mem_cons] at hm
      rcases hm with hm | hm
      · subst hm
        trivial
      · exact frameOK_mono (by omega) (hrest m hm)
  rw [if_neg h1]
  by_cases h2 : c = '$'
  · rw [if_pos h2]
    refine ⟨by dsimp only; omega, ?_, ?_⟩
    · intro mk hmk
      simp only [List.mem_singleton] at hmk
      subst hmk
      dsimp only
      omega
    · exact fun m hm => frameOK_mono (by omega) (hrest m hm)
  rw [if_neg h2]
  by_cases h3 : c = '"'
  · rw [if_pos h3]
    rcases hS : strScan r.length r with ⟨n, escs⟩
    obtain ⟨hn, hescs⟩ := strScan_ok r.length r
    rw [hS] at hn hescs
    dsimp only at hn hescs
    refine ⟨by dsimp only; simp only [List.length_cons]; omega, ?_, ?_⟩
    · intro mk hmk
      dsimp only at hmk
      simp only [List.mem_cons] at hmk
      rcases hmk with hmk | hmk
      · subst hmk
        dsimp only
        simp only [List.length_cons]
        omega
      · simp only [List.mem_map] at hmk
        obtain ⟨q, hq, hqeq⟩ := hmk
        subst hqeq
        have := hescs q hq
        dsimp only
        simp only [List.length_cons]
        omega
    · intro m hm
      dsimp only at hm
      simp only [List.mem_cons] at hm
      rcases hm with hm | hm
      · subst hm
        trivial
      · exact frameOK_mono (by omega) (hrest m hm)
  rw [if_neg h3]
  by_cases h4 : c = '/' ∧ r.head? = some '/'
  · rw [if_pos h4]
    have h2r : 2 ≤ (c :: r).length := by
      cases r with
      | nil => simp at h4
      | cons a t => simp
    have := lineCommentLen_le (c :: r) h2r
    refine ⟨by dsimp only; omega, ?_, ?_⟩
    · intro mk hmk
      simp only [List.mem_singleton] at hmk
      subst hmk
      dsimp only
      omega
    · intro m hm
      simp only [List.mem_cons] at hm
      rcases hm with hm | hm
      · subst hm
        trivial
      · exact frameOK_mono (by omega) (hrest m hm)
  rw [if_neg h4]
  by_cases h5 : c = '/' ∧ r.head? = some '*'
  · rw [if_pos h5]
    have h1r : 1 ≤ r.length := by
      cases r with
      | nil => simp at h5
      | cons a t => simp
    have hbl := blockLen_le (r.drop 1).length 1 (r.drop 1)
    have hdl : (r.drop 1).length = r.length - 1 := List.length_drop 1 r
    refine ⟨by dsimp only; simp only [List.length_cons]; omega, ?_, ?_⟩
    · intro mk hmk
      simp only [List.mem_singleton] at hmk
      subst hmk
      dsimp only
      simp only [List.length_cons]
      omega
    · intro m hm
      simp only [List.mem_cons] at hm
      rcases hm with hm | hm
      · subst hm
        trivial
      · exact frameOK_mono (by omega) (hrest m hm)
  rw [if_neg h5]
  by_cases h6 : c = '#'
  · rw [if_pos h6]
    rcases hHA : hashAction p (c :: r) with ⟨ms, k, push⟩
    obtain ⟨hk1, hkle, hms⟩ := hashAction_ok p c r
    rw [hHA] at hk1 hkle hms
    dsimp only at hk1 hkle hms
    refine ⟨hkle, ?_, ?_⟩
    · intro mk hmk
      have := hms mk hmk
      omega
    · cases hpu : push with
      | none =>
        intro m hm
        dsimp only at hm
        simp only [List.mem_cons] at hm
        rcases hm with hm | hm
        · subst hm
          trivial
        · exact frameOK_mono (by omega) (hrest m hm)
      | some md =>
        intro m hm
        dsimp only at hm
        simp only [List.mem_cons] at hm
        rcases hm with hm | hm
        · rw [hm]
          refine hashAction_frame p (p + k) (c :: r) md ?_
          rw [hHA, hpu]
        · rcases hm with hm | hm
          · subst hm
            trivial
          · exact frameOK_mono (by omega) (hrest m hm)
  rw [if_neg h6]
  by_cases h7 : idStartChar c
  · rw [if_pos h7]
    rcases hC : chainScan (c :: r).length (c :: r) with ⟨n, segs⟩
    obtain ⟨hn, hsegs⟩ := chainScan_ok (c :: r).length (c :: r)
    rw [hC] at hn hsegs
    dsimp only at hn hsegs
    refine ⟨by dsimp only; omega, ?_, ?_⟩
    · intro mk hmk
      dsimp only at hmk
      have hb := mathIdMarkers_bound p (max n 1)
        (decide (((c :: r).drop (max n 1)).head? = some '(')) segs
        (fun q hq => by have := hsegs q hq; omega) mk hmk
      omega
    · intro m hm
      dsimp only at hm
      simp only [List.mem_cons] at hm
      rcases hm with hm | hm
      · subst hm
        trivial
      · exact frameOK_mono (by omega) (hrest m hm)
  rw [if_neg h7]
  by_cases h8 : mathOpChar c
  · rw [if_pos h8]
    refine ⟨by dsimp only; omega, ?_, ?_⟩
    · intro mk hmk
      simp only [List.mem_singleton] at hmk
      subst hmk
      dsimp only
      omega
    · intro m hm
      simp only [List.mem_cons] at hm
      rcases hm with hm | hm
      · subst hm
        trivial
      · exact frameOK_mono (by omega) (hrest m hm)
  rw [if_neg h8]
  refine ⟨by dsimp only; omega, by simp, ?_⟩
  intro m hm
  simp only [List.mem_cons] at hm
  rcases hm with hm | hm
  · subst hm
    trivial
  · exact frameOK_mono (by omega) (hrest m hm)



theorem codeStep_ok (p : Nat) (c : Char) (r : List Char) (md : PMode) (rest : List PMode)
    (hmd : frameOK p md) (hrest : stackOK p rest) :
    stepRes p (c :: r).length (codeStep p c r md rest) := by
  have hlen1 : 1 ≤ (c :: r).length := by simp
  unfold codeStep
  by_cases h1 : isNL c
  · rw [if_pos h1]
    have hnl := nlLen_le (c :: r) (by simp)
    cases md with
    | codeLine =>
      refine ⟨by dsimp only; omega, by simp, ?_⟩
      exact fun m hm => frameOK_mono (by omega) (hrest m hm)
    | markup e hh b =>
      refine ⟨by dsimp only; omega, by simp, ?_⟩
      intro m hm
      simp only [List.mem_cons] at hm
      rcases hm with hm | hm
      · subst hm
        exact frameOK_mono (by omega) hmd
      · exact frameOK_mono (by omega) (hrest m hm)
    | math =>
      refine ⟨by dsimp only; omega, by simp, ?_⟩
      intro m hm
      simp only [List.mem_cons] at hm
      rcases hm with hm | hm
      · subst hm
        trivial
      · exact frameOK_mono (by omega) (hrest m hm)
    | codeParen d =>
      refine ⟨by dsimp only; omega, by simp, ?_⟩
      intro m hm
      simp only [List.mem_cons] at hm
      rcases hm with hm | hm
      · subst hm
        trivial
      · exact frameOK_mono (by omega) (hrest m hm)
    | codeBrace d =>
      refine ⟨by dsimp only; omega, by simp, ?_⟩
      intro m hm
      simp only [List.mem_cons] at hm
      rcases hm with hm | hm
      · subst hm
        trivial
      · exact frameOK_mono (by omega) (hrest m hm)
  rw [if_neg h1]
  by_cases h2 : 0 < escLen (c :: r)
  · rw [if_pos h2]
    have := escLen_le (c :: r)
    refine ⟨by dsimp only; omega, ?_, ?_⟩
    · intro mk hmk
      simp only [List.mem_singleton] at hmk
      subst hmk
      dsimp only
      omega
    · intro m hm
      simp only [List.mem_cons] at hm
      rcases hm with hm | hm
      · subst hm
        exact frameOK_mono (by omega) hmd
      · exact frameOK_mono (by omega) (hrest m hm)
  rw [if_neg h2]
  by_cases h3 : c = '"'
  · rw [if_pos h3]
    rcases hS : strScan r.length r with ⟨n, escs⟩
    obtain ⟨hn, hescs⟩ := strScan_ok r.length r
    rw [hS] at hn hescs
    dsimp only at hn hescs
    refine ⟨by dsimp only; simp only [List.length_cons]; omega, ?_, ?_⟩
    · intro mk hmk
      dsimp only at hmk
      simp only [List.mem_cons] at hmk
      rcases hmk with hmk | hmk
      · subst hmk
        dsimp only
        simp only [List.length_cons]
        omega
      · simp only [List.mem_map] at hmk
        obtain ⟨q, hq, hqeq⟩ := hmk
        subst hqeq
        have := hescs q hq
        dsimp only
        simp only [List.length_cons]
        omega
    · intro m hm
      dsimp only at hm
      simp only [List.mem_cons] at hm
      rcases hm with hm | hm
      · subst hm
        exact frameOK_mono (by omega) hmd
      · exact frameOK_mono (by omega) (hrest m hm)
  rw [if_neg h3]
  by_cases h4 : c = '/' ∧ r.head? = some '/'
  · rw [if_pos h4]
    have h2r : 2 ≤ (c :: r).length := by
      cases r with
      | nil => simp at h4
      | cons a t => simp
    have := lineCommentLen_le (c :: r) h2r
    refine ⟨by dsimp only; omega, ?_, ?_⟩
    · intro mk hmk
      simp only [List.mem_singleton] at hmk
      subst hmk
      dsimp only
      omega
    · intro m hm
      simp only [List.mem_cons] at hm
      rcases hm with hm | hm
      · subst hm
        exact frameOK_mono (by omega) hmd
      · exact frameOK_mono (by omega) (hrest m hm)
  rw [if_neg h4]
  by_cases h5 : c = '/' ∧ r.head? = some '*'
  · rw [if_pos h5]
    have h1r : 1 ≤ r.length := by
      cases r with
      | nil => simp at h5
      | cons a t => simp
    have hbl := blockLen_le (r.drop 1).length 1 (r.drop 1)
    have hdl : (r.drop 1).length = r.length - 1 := List.length_drop 1 r
    refine ⟨by dsimp only; simp only [List.length_cons]; omega, ?_, ?_⟩
    · intro mk hmk
      simp only [List.mem_singleton] at hmk
      subst hmk
      dsimp only
      simp only [List.length_cons]
      omega
    · intro m hm
      simp only [List.mem_cons] at hm
      rcases hm with hm | hm
      · subst hm
        exact frameOK_mono (by omega) hmd
      · exact frameOK_mono (by omega) (hrest m hm)
  rw [if_neg h5]
  by_cases h6 : c = '('
  · rw [if_pos h6]
    cases md with
    | codeParen d =>
      refine ⟨by dsimp only; omega, by simp, ?_⟩
      intro m hm
      simp only [List.mem_cons] at hm
      rcases hm with hm | hm
      · subst hm
        trivial
      · exact frameOK_mono (by omega) (hrest m hm)
    | markup e hh b =>
      refine ⟨by dsimp only; omega, by simp, ?_⟩
      intro m hm
      simp only [List.mem_cons] at hm
      rcases hm with hm | (hm | hm)
      · subst hm
        trivial
      · subst hm
        exact frameOK_mono (by omega) hmd
      · exact frameOK_mono (by omega) (hrest m hm)
    | math =>
      refine ⟨by dsimp only; omega, by simp, ?_⟩
      intro m hm
      simp only [List.mem_cons] at hm
      rcases hm with hm | (hm | hm)
      · subst hm
        trivial
      · subst hm
        trivial
      · exact frameOK_mono (by omega) (hrest m hm)
    | codeBrace d =>
      refine ⟨by dsimp only; omega, by simp, ?_⟩
      intro m hm
      simp only [List.mem_cons] at hm
      rcases hm with hm | (hm | hm)
      · subst hm
        trivial
      · subst hm
        trivial
      · exact frameOK_mono (by omega) (hrest m hm)
    | codeLine =>
      refine ⟨by dsimp only; omega, by simp, ?_⟩
      intro m hm
      simp only [List.mem_cons] at hm
      rcases hm with hm | (hm | hm)
      · subst hm
        trivial
      · subst hm
        trivial
      · exact frameOK_mono (by omega) (hrest m hm)
  rw [if_neg h6]
  by_cases h7 : c = ')'
  · rw [if_pos h7]
    cases md with
    | codeParen d =>
      rcases d with _ | _ | d2
      · refine ⟨by dsimp only; omega, by simp, ?_⟩
        intro m hm
        simp only [List.mem_cons] at hm
        rcases hm with hm | hm
        · subst hm
          trivial
        · exact frameOK_mono (by omega) (hrest m hm)
      · refine ⟨by dsimp only; omega, by simp, ?_⟩
        exact fun m hm => frameOK_mono (by omega) (hrest m hm)
      · refine ⟨by dsimp only; omega, by simp, ?_⟩
        intro m hm
        simp only [List.mem_cons] at hm
        rcases hm with hm | hm
        · subst hm
          trivial
        · exact frameOK_mono (by omega) (hrest m hm)
    | markup e hh b =>
      refine ⟨by dsimp only; omega, by simp, ?_⟩
      intro m hm
      simp only [List.mem_cons] at hm
      rcases hm with hm | hm
      · subst hm
        exact frameOK_mono (by omega) hmd
      · exact frameOK_mono (by omega) (hrest m hm)
    | math =>
      refine ⟨by dsimp only; omega, by simp, ?_⟩
      intro m hm
      simp only [List.mem_cons] at hm
      rcases hm with hm | hm
      · subst hm
        trivial
      · exact frameOK_mono (by omega) (hrest m hm)
    | codeBrace d =>
      refine ⟨by dsimp only; omega, by simp, ?_⟩
      intro m hm
      simp only [List.mem_cons] at hm
      rcases hm with hm | hm
      · subst hm
        trivial
      · exact frameOK_mono (by omega) (hrest m hm)
    | codeLine =>
      refine ⟨by dsimp only; omega, by simp, ?_⟩
      intro m hm
      simp only [List.mem_cons] at hm
      rcases hm with hm | hm
      · subst hm
        trivial
      · exact frameOK_mono (by omega) (hrest m hm)
  rw [if_neg h7]
  by_cases h8 : c = '{'
  · rw [if_pos h8]
    cases md with
    | codeBrace d =>
      refine ⟨by dsimp only; omega, by simp, ?_⟩
      intro m hm
      simp only [List.mem_cons] at hm
      rcases hm with hm | hm
      · subst hm
        trivial
      · exact frameOK_mono (by omega) (hrest m hm)
    | markup e hh b =>
      refine ⟨by dsimp only; omega, by simp, ?_⟩
      intro m hm
      simp only [List.mem_cons] at hm
      rcases hm with hm | (hm | hm)
      · subst hm
        trivial
      · subst hm
        exact frameOK_mono (by omega) hmd
      · exact frameOK_mono (by omega) (hrest m hm)
    | math =>
      refine ⟨by dsimp only; omega, by simp, ?_⟩
      intro m hm
      simp only [List.mem_cons] at hm
      rcases hm with hm | (hm | hm)
      · subst hm
        trivial
      · subst hm
        trivial
      · exact frameOK_mono (by omega) (hrest m hm)
    | codeParen d =>
      refine ⟨by dsimp only; omega, by simp, ?_⟩
      intro m hm
      simp only [List.mem_cons] at hm
      rcases hm with hm | (hm | hm)
      · subst hm
        trivial
      · subst hm
        trivial
      · exact frameOK_mono (by omega) (hrest m hm)
    | codeLine =>
      refine ⟨by dsimp only; omega, by simp, ?_⟩
      intro m hm
      simp only [List.mem_cons] at hm
      rcases hm with hm | (hm | hm)
      · subst hm
        trivial
      · subst hm
        trivial
      · exact frameOK_mono (by omega) (hrest m hm)
  rw [if_neg h8]
  by_cases h9 : c = '}'
  · rw [if_pos h9]
    cases md with
    | codeBrace d =>
      rcases d with _ | _ | d2
      · refine ⟨by dsimp only; omega, by simp, ?_⟩
        intro m hm
        simp only [List.mem_cons] at hm
        rcases hm with hm | hm
        · subst hm
          trivial
        · exact frameOK_mono (by omega) (hrest m hm)
      · refine ⟨by dsimp only; omega, by simp, ?_⟩
        exact fun m hm => frameOK_mono (by omega) (hrest m hm)
      · refine ⟨by dsimp only; omega, by simp, ?_⟩
        intro m hm
        simp only [List.mem_cons] at hm
        rcases hm with hm | hm
        · subst hm
          trivial
        · exact frameOK_mono (by omega) (hrest m hm)
    | markup e hh b =>
      refine ⟨by dsimp only; omega, by simp, ?_⟩
      intro m hm
      simp only [List.mem_cons] at hm
      rcases hm with hm | hm
      · subst hm
        exact frameOK_mono (by omega) hmd
      · exact frameOK_mono (by omega) (hrest m hm)
    | math =>
      refine ⟨by dsimp only; omega, by simp, ?_⟩
      intro m hm
      simp only [List.mem_cons] at hm
      rcases hm with hm | hm
      · subst hm
        trivial
      · exact frameOK_mono (by omega) (hrest m hm)
    | codeParen d =>
      refine ⟨by dsimp only; omega, by simp, ?_⟩
      intro m hm
      simp only [List.mem_cons] at hm
      rcases hm with hm | hm
      · subst hm
        trivial
      · exact frameOK_mono (by omega) (hrest m hm)
    | codeLine =>
      refine ⟨by dsimp only; omega, by simp, ?_⟩
      intro m hm
      simp only [List.mem_cons] at hm
      rcases hm with hm | hm
      · subst hm
        trivial
      · exact frameOK_mono (by omega) (hrest m hm)
  rw [if_neg h9]
  by_cases h10 : c = '['
  · rw [if_pos h10]
    refine ⟨by dsimp only; omega, by simp, ?_⟩
    intro m hm
    simp only [List.mem_cons] at hm
    rcases hm with hm | (hm | hm)
    · subst hm
      exact ⟨fun fr hfr => absurd hfr (by simp), fun h hh => by simp at hh⟩
    · subst hm
      exact frameOK_mono (by omega) hmd
    · exact frameOK_mono (by omega) (hrest m hm)
  rw [if_neg h10]
  by_cases h11 : c = 'x' ∧ 0 < hexLen (c :: r)
  · rw [if_pos h11]
    have hhx := hexLen_le (c :: r)
    have hu := unitLen_le ((c :: r).drop (hexLen (c :: r)))
    rw [List.length_drop] at hu
    refine ⟨by dsimp only; omega, ?_, ?_⟩
    · intro mk hmk
      simp only [List.mem_singleton] at hmk
      subst hmk
      dsimp only
      omega
    · intro m hm
      simp only [List.mem_cons] at hm
      rcases hm with hm | hm
      · subst hm
        exact frameOK_mono (by omega) hmd
      · exact frameOK_mono (by omega) (hrest m hm)
  rw [if_neg h11]
  by_cases h12 : (c.isDigit ∨ c = '-') ∧ 0 < decLen (c :: r)
  · rw [if_pos h12]
    have hdc := decLen_le (c :: r)
    have hu := unitLen_le ((c :: r).drop (decLen (c :: r)))
    rw [List.length_drop] at hu
    refine ⟨by dsimp only; omega, ?_, ?_⟩
    · intro mk hmk
      simp only [List.mem_singleton] at hmk
      subst hmk
      dsimp only
      omega
    · intro m hm
      simp only [List.mem_cons] at hm
      rcases hm with hm | hm
      · subst hm
        exact frameOK_mono (by omega) hmd
      · exact frameOK_mono (by omega) (hrest m hm)
  rw [if_neg h12]
  by_cases h13 : idStartChar c
  · rw [if_pos h13]
    rcases hC : chainScan (c :: r).length (c :: r) with ⟨n, segs⟩
    obtain ⟨hn, hsegs⟩ := chainScan_ok (c :: r).length (c :: r)
    rw [hC] at hn hsegs
    dsimp only at hn hsegs
    dsimp only
    by_cases h13a : segs.length = 1 ∧ isKw ((c :: r).take (max n 1))
    · rw [if_pos h13a]
      refine ⟨by dsimp only; omega, ?_, ?_⟩
      · intro mk hmk
        simp only [List.mem_singleton] at hmk
        subst hmk
        dsimp only
        omega
      · intro m hm
        simp only [List.mem_cons] at hm
        rcases hm with hm | hm
        · subst hm
          exact frameOK_mono (by omega) hmd
        · exact frameOK_mono (by omega) (hrest m hm)
    · rw [if_neg h13a]
      refine ⟨by dsimp only; omega, ?_, ?_⟩
      · intro mk hmk
        dsimp only at hmk
        have hb := codeIdMarkers_bound p (max n 1)
          (decide (((c :: r).drop (max n 1)).head? = some '(')) segs
          (fun q hq => by have := hsegs q hq; omega) mk hmk
        omega
      · intro m hm
        dsimp only at hm
        simp only [List.mem_cons] at hm
        rcases hm with hm | hm
        · subst hm
          exact frameOK_mono (by omega) hmd
        · exact frameOK_mono (by omega) (hrest m hm)
  rw [if_neg h13]
  refine ⟨by dsimp only; omega, by simp, ?_⟩
  intro m hm
  simp only [List.mem_cons] at hm
  rcases hm with hm | hm
  · subst hm
    exact frameOK_mono (by omega) hmd
  · exact frameOK_mono (by omega) (hrest m hm)



theorem doStep_ok (p : Nat) (c : Char) (r : List Char) (m : PMode) (rest : List PMode)
    (hm : frameOK p m) (hrest : stackOK p rest) :
    stepRes p (c :: r).length (doStep p c r m rest) := by
  cases m with
  | markup e h b => exact markupStep_ok p c r e h b rest hm.1 hm.2 hrest
  | math => exact mathStep_ok p c r rest hrest
  | codeParen d => exact codeStep_ok p c r (PMode.codeParen d) rest (by trivial) hrest
  | codeBrace d => exact codeStep_ok p c r (PMode.codeBrace d) rest (by trivial) hrest
  | codeLine => exact codeStep_ok p c r PMode.codeLine rest (by trivial) hrest

theorem runP_bound : ∀ fuel p cs stack, stackOK p stack →
    ∀ mk ∈ runP fuel p cs stack, mk.startPos + mk.length ≤ p + cs.length := by
  intro fuel
  induction fuel with
  | zero =>
    intro p cs stack hst mk hmk
    simp [runP] at hmk
  | succ fuel ih =>
    intro p cs stack hst mk hmk
    cases cs with
    | nil =>
      cases stack with
      | nil =>
        have := closeAll_bound p [] hst mk hmk
        omega
      | cons m rest =>
        have := closeAll_bound p (m :: rest) hst mk hmk
        omega
    | cons c r =>
      cases stack with
      | nil => simp [runP] at hmk
      | cons m rest =>
        rw [show runP (fuel + 1) p (c :: r) (m :: rest) =
            (doStep p c r m rest).1 ++
              runP fuel (p + (doStep p c r m rest).2.1)
                ((c :: r).drop (doStep p c r m rest).2.1) (doStep p c r m rest).2.2 by
          rw [runP]] at hmk
        obtain ⟨hk, hms, hstk⟩ := doStep_ok p c r m rest (hst m (by simp))
          (fun m2 hm2 => hst m2 (by simp [hm2]))
        rw [List.mem_append] at hmk
        rcases hmk with hmk | hmk
        · exact hms mk hmk
        · have := ih (p + (doStep p c r m rest).2.1)
            ((c :: r).drop (doStep p c r m rest).2.1) (doStep p c r m rest).2.2 hstk mk hmk
          rw [List.length_drop] at this
          simp only [List.length_cons] at hk this ⊢
          omega

theorem parse_bound (s : List Char) :
    ∀ mk ∈ parse s, mk.startPos + mk.length ≤ s.length := by
  intro mk hmk
  unfold parse at hmk
  rcases hLO : lineOpen 0 0 s with ⟨lm, k, hNew⟩
  obtain ⟨hk, hlm, hhNew⟩ := lineOpen_ok 0 0 s (by omega)
  rw [hLO] at hk hlm hhNew hmk
  dsimp only at hk hlm hhNew hmk
  rw [List.mem_append] at hmk
  rcases hmk with hmk | hmk
  · have := hlm mk hmk
    omega
  · have hst : stackOK k [PMode.markup [] hNew false] := by
      intro m hm
      simp only [List.mem_singleton] at hm
      subst hm
      exact ⟨fun fr hfr => absurd hfr (by simp),
        fun h hh => by have := hhNew h hh; omega⟩
    have := runP_bound (2 * s.length + 2) k (s.drop k) [PMode.markup [] hNew false] hst mk hmk
    rw [List.length_drop] at this
    omega



theorem escLen_btick (r : List Char) : escLen (btick :: r) = 0 := by
  unfold escLen
  split
  · next heq =>
    exact absurd (List.head_eq_of_cons_eq heq) (by decide)
  · rfl

theorem lineOpen_btick (q p0 : Nat) (r : List Char) :
    lineOpen q p0 (btick :: r) = ([], 0, none) := by
  have hin : afterIndent (btick :: r) = btick :: r := by
    unfold afterIndent
    rw [List.takeWhile_cons_of_neg (by decide)]
    rfl
  unfold lineOpen
  rw [if_neg, ]
  · rw [show listAhead (btick :: r) = none from ?_]
    unfold listAhead
    rw [hin]
    simp only [List.head?_cons]
    rw [if_neg (by decide)]
  · unfold headingAhead
    rw [hin]
    rw [List.takeWhile_cons_of_neg (by decide)]
    simp

theorem runP_step (f p : Nat) (c : Char) (r : List Char) (m : PMode) (rest : List PMode) :
    runP (f + 1) p (c :: r) (m :: rest) =
      (doStep p c r m rest).1 ++ runP f (p + (doStep p c r m rest).2.1)
        ((c :: r).drop (doStep p c r m rest).2.1) (doStep p c r m rest).2.2 := by
  rw [runP]

/-- The head run of backticks of an input prepended with `n` backticks
whose remainder does not start with a backtick has length exactly `n`. -/
theorem btickRun_prepend : ∀ (n : Nat) (l : List Char), l.head? ≠ some btick →
    btickRun (List.replicate n btick ++ l) = n := by
  intro n
  induction n with
  | zero =>
    intro l hl
    rw [List.replicate_zero, List.nil_append]
    unfold btickRun
    cases l with
    | nil => rfl
    | cons c r =>
      rw [List.takeWhile_cons_of_neg]
      · rfl
      · simp only [List.head?_cons, ne_eq, Option.some.injEq] at hl
        simp [hl]
  | succ m ih =>
    intro l hl
    rw [List.replicate_succ, List.cons_append]
    unfold btickRun
    rw [List.takeWhile_cons_of_pos (by decide), List.length_cons]
    have := ih l hl
    unfold btickRun at this
    omega

theorem getLast_all_btick : ∀ (l : List Char), l ≠ [] → (∀ x ∈ l, x = btick) →
    l.getLast? = some btick := by
  intro l
  induction l with
  | nil => intro h; exact absurd rfl h
  | cons c r ih =>
    intro _ hall
    cases r with
    | nil =>
      rw [show ([c] : List Char).getLast? = some c from rfl, hall c (by simp)]
    | cons a t =>
      rw [List.getLast?_cons_cons]
      exact ih (by simp) (fun x hx => hall x (by simp [hx]))

theorem findFence_closes (n : Nat) (hn : 0 < n) :
    ∀ content : List Char, ¬ List.replicate n btick <:+: content →
      content.getLast? ≠ some btick →
      findFence n (content ++ List.replicate n btick) = some content.length := by
  intro content
  induction content with
  | nil =>
    intro _ _
    obtain ⟨m, rfl⟩ : ∃ m, n = m + 1 := ⟨n - 1, by omega⟩
    rw [List.nil_append, List.replicate_succ]
    unfold findFence
    rw [if_pos]
    · rfl
    · rw [List.take_succ_cons, List.take_replicate, Nat.min_self, List.replicate_succ]
  | cons c r ih =>
    intro hrun hlast
    rw [List.cons_append]
    unfold findFence
    rw [if_neg ?hcheck, ih ?hrun2 ?hlast2]
    · rfl
    case hrun2 =>
      intro h
      exact hrun (List.infix_cons h)
    case hlast2 =>
      cases r with
      | nil => simp
      | cons a t =>
        rw [List.getLast?_cons_cons] at hlast
        exact hlast
    case hcheck =>
      intro heq
      rw [← List.cons_append] at heq
      by_cases hlen : n ≤ (c :: r).length
      · rw [List.take_append_of_le_length hlen] at heq
        exact hrun (heq ▸ List.take_prefix n (c :: r)).isInfix
      · push_neg at hlen
        rw [List.take_append_eq_append_take, List.take_of_length_le (by omega)] at heq
        have hpre : (c :: r) <+: List.replicate n btick := ⟨_, heq⟩
        have hall : ∀ x ∈ c :: r, x = btick :=
          fun x hx => List.eq_of_mem_replicate (hpre.subset hx)
        exact hlast (getLast_all_btick (c :: r) (by simp) hall)

theorem rawSpanLen_fence_gen (n : Nat) (content : List Char) (h1 : 1 ≤ n) (h2 : n ≠ 2)
    (hne : content ≠ []) (hhead : content.head? ≠ some btick)
    (hlast : content.getLast? ≠ some btick)
    (hrun : ¬ List.replicate n btick <:+: content) :
    rawSpanLen (List.replicate n btick ++ (content ++ List.replicate n btick)) =
      content.length + 2 * n := by
  have hhead2 : (content ++ List.replicate n btick).head? ≠ some btick := by
    rcases content with _ | ⟨c0, r0⟩
    · exact absurd rfl hne
    · rw [List.cons_append]
      simpa using hhead
  have hbr := btickRun_prepend n (content ++ List.replicate n btick) hhead2
  unfold rawSpanLen
  rw [hbr, if_neg h2]
  have hdrop : (List.replicate n btick ++ (content ++ List.replicate n btick)).drop n
      = content ++ List.replicate n btick := by
    have := List.drop_left (List.replicate n btick) (content ++ List.replicate n btick)
    rwa [List.length_replicate] at this
  rw [hdrop, findFence_closes n (by omega) content hrun hlast]
  dsimp only
  omega

theorem markupStep_btick (r : List Char) :
    markupStep 0 btick r [] none false [] =
      ([⟨MarkerKind.RAW, 0, rawSpanLen (btick :: r)⟩], rawSpanLen (btick :: r),
       [PMode.markup [] none false]) := by
  unfold markupStep
  rw [if_neg (by decide)]
  rw [escLen_btick]
  rw [if_neg (by omega)]
  rw [if_pos rfl]

theorem parse_single_raw (r : List Char)
    (hL : rawSpanLen (btick :: r) = (btick :: r).length) :
    parse (btick :: r) = [⟨MarkerKind.RAW, 0, (btick :: r).length⟩] := by
  unfold parse
  rw [lineOpen_btick]
  dsimp only
  rw [List.drop_zero]
  rw [show (2 : Nat) * (btick :: r).length + 2 = (2 * (btick :: r).length + 1) + 1 from rfl]
  rw [runP_step]
  rw [show doStep 0 btick r (PMode.markup [] none false) [] =
      markupStep 0 btick r [] none false [] from rfl]
  rw [markupStep_btick]
  dsimp only
  rw [hL]
  rw [List.drop_length]
  rw [show (2 : Nat) * (btick :: r).length + 1 = (2 * (btick :: r).length) + 1 from rfl]
  rw [runP]
  rfl

theorem raw_fence_parse_gen (n : Nat) (content : List Char) (h1 : 1 ≤ n) (h2 : n ≠ 2)
    (hne : content ≠ []) (hhead : content.head? ≠ some btick)
    (hlast : content.getLast? ≠ some btick)
    (hrun : ¬ List.replicate n btick <:+: content) :
    parse (List.replicate n btick ++ (content ++ List.replicate n btick)) =
      [⟨MarkerKind.RAW, 0, content.length + 2 * n⟩] := by
  have hSL := rawSpanLen_fence_gen n content h1 h2 hne hhead hlast hrun
  obtain ⟨m, rfl⟩ : ∃ m, n = m + 1 := ⟨n - 1, by omega⟩
  rw [List.replicate_succ, List.cons_append] at hSL ⊢
  set T := List.replicate m btick ++ (content ++ btick :: List.replicate m btick) with hT
  have hlen : (btick :: T).length = content.length + 2 * (m + 1) := by
    rw [hT]
    simp only [List.length_cons, List.length_append, List.length_replicate]
    omega
  rw [parse_single_raw T (by rw [hSL, hlen]), hlen]



/-! ## The claims -/

/-- C9: for every word `w` and any loaded speller, calling
`SpellChecker::addToPersonalDictionary(w)` and then
`SpellChecker::checkWord(speller, w)` returns true regardless of the
Hunspell dictionary answer, because both the insertion and the lookup use
the NFD normalization of the word. -/
theorem C9_personal_dictionary_accepts (nfd : List Char → List Char)
    (spell : List Char → Bool) (sc : SpellChecker) (w : List Char) :
    checkWord nfd spell (addToPersonalDictionary nfd sc w) w = true := by
  unfold checkWord addToPersonalDictionary
  rw [if_pos]
  exact List.mem_insert_self _ _

/-- C10: whenever no current dictionary is set (the current dictionary
name is empty), `SpellChecker::checkSpelling(text)` returns the empty
list for every text, every boundary decomposition, every speller and
every lock outcome. -/
theorem C10_no_dictionary_no_spans (nfd : List Char → List Char)
    (spell : List Char → Bool) (lockOk : Bool) (boundaries : List (Nat × Bool))
    (sc : SpellChecker) (text : List Char) (hdict : sc.currentDictName = []) :
    checkSpelling nfd spell lockOk boundaries sc text = [] := by
  unfold checkSpelling
  rw [if_pos hdict]

/-- Witness for C10 at a concrete input: a checker with no dictionary set
reports nothing on "abc" even though its one word would fail the spell
check (the spell function is constantly false). -/
theorem C10_witness :
    (⟨[], []⟩ : SpellChecker).currentDictName = [] ∧
      checkSpelling (fun w => w) (fun _ => false) true [(3, true)]
        ⟨[], []⟩ ('a' :: 'b' :: 'c' :: []) = [] :=
  ⟨rfl, C10_no_dictionary_no_spans (fun w => w) (fun _ => false) true [(3, true)]
    ⟨[], []⟩ ('a' :: 'b' :: 'c' :: []) rfl⟩

/-- C1 (amended): for every input, the first token produced by the
`Tokenizer` is `BEGIN` (position 0, length 0) and the last is `TEXT_END`
(position = input length, length 0); `atEnd()` is true exactly once
`BEGIN` has been produced and the whole input consumed — that is, from
the (content token count + 1)-th call on, which is already before
`TEXT_END` has been produced.  The original claim's "exactly when the
TEXT_END token has been produced" is refuted by
`C1_atEnd_before_TEXT_END`, as pinned by `TokenizerTests.TestEmpty`. -/
theorem C1_sentinels_and_atEnd (s : List Char) :
    (tokenStream s).head? = some ⟨TokenType.BEGIN, 0, 0, []⟩ ∧
    (tokenStream s).getLast? = some ⟨TokenType.TEXT_END, s.length, 0, []⟩ ∧
    ∀ k, (stateAfter s k).atEnd = true ↔ (tokensFrom 0 s).length + 1 ≤ k := by
  refine ⟨?_, ?_, atEnd_spec s⟩
  · rw [tokenStream_eq_tokenize]
    rfl
  · rw [tokenStream_eq_tokenize]
    unfold tokenize
    rw [show (⟨TokenType.BEGIN, 0, 0, []⟩ : Token) ::
          (tokensFrom 0 s ++ [⟨TokenType.TEXT_END, s.length, 0, []⟩]) =
        (⟨TokenType.BEGIN, 0, 0, []⟩ :: tokensFrom 0 s) ++
          [⟨TokenType.TEXT_END, s.length, 0, []⟩] from by rw [List.cons_append]]
    rw [List.getLast?_concat]

/-- Counterexample to C1 as stated: on the empty input, after a single
`nextToken()` call the only token produced is `BEGIN` — `TEXT_END` has
not been produced — yet `atEnd()` is already true.  `atEnd()` therefore
does not become true "exactly when (and not before) the TEXT_END token
has been produced". -/
theorem C1_atEnd_before_TEXT_END :
    produceTokens 1 (Tokenizer.init []) = [⟨TokenType.BEGIN, 0, 0, []⟩] ∧
    (stateAfter [] 1).atEnd = true ∧
    TokenType.TEXT_END ∉ (produceTokens 1 (Tokenizer.init [])).map Token.type := by
  decide

/-- C2: for every input, concatenating the text spans of all tokens of
the stream (in emission order) reproduces the input exactly, and the
spans are contiguous and non-overlapping: each token starts where the
previous one ended, with its recorded length equal to its text length. -/
theorem C2_spans_reconstruct (s : List Char) :
    ((tokenize s).map Token.text).flatten = s ∧ contiguousFrom 0 (tokenize s) := by
  constructor
  · have h := tokensFromAux_flatten s.length 0 s le_rfl
    unfold tokenize tokensFrom
    simp only [List.map_cons, List.map_append, List.flatten_cons, List.flatten_append]
    simp [h]
  · have h := tokensFrom_contiguous s.length s 0 le_rfl
    unfold tokenize
    exact ⟨rfl, rfl, by simpa using h⟩

/-- C3 (amended): for every fence length `n` other than 2 (a run of
exactly two backticks is an empty raw span, not a fence, as pinned by
`HiglightingParserTests.RawContent`) and every non-empty fenced interior
that neither starts nor ends with a backtick and contains no backtick run
as long as the fence, the raw span closes only at the closing run of the
exact opening length: parsing fence-interior-fence yields the single RAW
marker covering the whole construct, so intervening shorter backtick
runs, sigils, and emphasis delimiters inside the span are inert.  The two
`RawContent` test vectors are also verified. -/
theorem C3_raw_fences :
    (∀ (n : Nat) (content : List Char), 1 ≤ n → n ≠ 2 → content ≠ [] →
        content.head? ≠ some btick → content.getLast? ≠ some btick →
        ¬ List.replicate n btick <:+: content →
        parse (List.replicate n btick ++ (content ++ List.replicate n btick)) =
          [⟨MarkerKind.RAW, 0, content.length + 2 * n⟩]) ∧
    parse "`` `some $raw$ with _emph_` `raw with\nnewline`".data =
      [⟨MarkerKind.RAW, 0, 2⟩, ⟨MarkerKind.RAW, 3, 24⟩, ⟨MarkerKind.RAW, 28, 18⟩] ∧
    parse "```some $raw$ with _emph_` ``` ```raw block with\nnewline```".data =
      [⟨MarkerKind.RAW, 0, 30⟩, ⟨MarkerKind.RAW, 31, 28⟩] :=
  ⟨raw_fence_parse_gen, by decide, by decide⟩

/-- Counterexample to C3 as stated: in the input of two backticks, an
emphasised x, and two more backticks, the leading double backtick does
NOT open a span closing at the next double backtick — it is an empty raw
span, the emphasis between the two double backticks is reported as a
separate EMPHASIS marker, and no single RAW marker covers the whole
input. -/
theorem C3_double_btick_not_a_fence :
    parse "`` _x_ ``".data =
      [⟨MarkerKind.RAW, 0, 2⟩, ⟨MarkerKind.EMPHASIS, 3, 3⟩, ⟨MarkerKind.RAW, 7, 2⟩] ∧
    (⟨MarkerKind.RAW, 0, 9⟩ : HiglightingMarker) ∉ parse "`` _x_ ``".data ∧
    (⟨MarkerKind.EMPHASIS, 3, 3⟩ : HiglightingMarker) ∈ parse "`` _x_ ``".data := by
  decide

/-- C4: parsing the input star, text, newline, two spaces, newline, star
produces exactly two STRONG_EMPHASIS markers — one covering the first
paragraph including its opening star (positions 0..35, closed at the
paragraph break), and one zero-content marker (length 1, just the star
itself) for the trailing lone star — and in particular no single marker
spanning the blank line. -/
theorem C4_emphasis_paragraph_break :
    parse "*bold broken by paragraph break\n  \n*".data =
      [⟨MarkerKind.STRONG_EMPHASIS, 0, 35⟩, ⟨MarkerKind.STRONG_EMPHASIS, 35, 1⟩] := by
  decide

/-- C5: tokenizing "12e-" yields exactly CODE_NUMBER("12"), WORD("e"),
SYMBOL("-") between the sentinels — the longest numeric match backtracks
off the dangling exponent and the remainder is re-tokenized under the
ordinary word/symbol rules. -/
theorem C5_numeric_backtracking :
    tokenize "12e-".data =
      [⟨TokenType.BEGIN, 0, 0, []⟩,
       ⟨TokenType.CODE_NUMBER, 0, 2, "12".data⟩,
       ⟨TokenType.WORD, 2, 1, "e".data⟩,
       ⟨TokenType.SYMBOL, 3, 1, "-".data⟩,
       ⟨TokenType.TEXT_END, 4, 0, []⟩] := by
  decide

/-- C6: tokenizing "x10CAFE.b DEADBEEF" yields exactly
CODE_NUMBER("x10CAFE.b"), WHITESPACE, WORD("DEADBEEF") between the
sentinels — the x-prefixed hex shape is a CODE_NUMBER in priority over a
WORD, while the hex-digit letters without the leading x shape remain a
WORD. -/
theorem C6_hex_code_number :
    tokenize "x10CAFE.b DEADBEEF".data =
      [⟨TokenType.BEGIN, 0, 0, []⟩,
       ⟨TokenType.CODE_NUMBER, 0, 9, "x10CAFE.b".data⟩,
       ⟨TokenType.WHITESPACE, 9, 1, " ".data⟩,
       ⟨TokenType.WORD, 10, 8, "DEADBEEF".data⟩,
       ⟨TokenType.TEXT_END, 18, 0, []⟩] := by
  decide

/-- C7: the empty input is valid — tokenization yields only the sentinel
tokens `BEGIN` then `TEXT_END` (both zero-length at position 0), and
`parse` emits zero markers. -/
theorem C7_empty_input :
    tokenize [] = [⟨TokenType.BEGIN, 0, 0, []⟩, ⟨TokenType.TEXT_END, 0, 0, []⟩] ∧
    parse [] = [] :=
  ⟨rfl, rfl⟩

/-- C8: for every input text, every marker emitted by `parse` lies within
the input bounds: its start position is at least 0 and start + length
does not exceed the input length. -/
theorem C8_markers_in_bounds (s : List Char) :
    ∀ mk ∈ parse s, 0 ≤ mk.startPos ∧ mk.startPos + mk.length ≤ s.length :=
  fun mk hmk => ⟨Nat.zero_le _, parse_bound s mk hmk⟩

/-- Witness for C8 at a concrete input: the opening math delimiter marker
of a small math string is emitted by `parse` and its span lies within the
input. -/
theorem C8_witness :
    (⟨MarkerKind.MATH_DELIMITER, 0, 1⟩ : HiglightingMarker) ∈ parse "$x$".data ∧
    (0 ≤ 0 ∧ 0 + 1 ≤ "$x$".data.length) :=
  ⟨by decide,
   C8_markers_in_bounds "$x$".data ⟨MarkerKind.MATH_DELIMITER, 0, 1⟩ (by decide)⟩

end katvan
